import Mathlib

/-!
Verification of the review-preprocessing pipeline
(`scripts/preprocessing.py` with configuration `scripts/config.py`).

The pipeline is shallowly embedded: a pandas `DataFrame` becomes a `Table`
(a list of column names plus a list of rows, each row an association list
from column name to dynamic `Value`); each preprocessing stage becomes a
function on `Table`, returning the number of rows it removed, and the
whole `process` run returns either an error (an uncaught Python exception)
or the final table together with the recorded statistics.
-/

/-- Numeric cell value, kept as an unreduced numerator/denominator pair
(models Python/pandas numbers; `d` is positive for every value the
pipeline constructs). -/
structure PyNum where
  n : Int
  d : Nat
deriving DecidableEq, Repr

/-- Numeric order by cross multiplication; the `max · 1` guard keeps the
order total even on degenerate denominators that the pipeline never
builds. -/
def PyNum.le (a b : PyNum) : Bool :=
  decide (a.n * (max b.d 1 : Nat) ≤ b.n * (max a.d 1 : Nat))

/-- Truncation toward zero, the semantics of numpy `astype(int)`. -/
def PyNum.toIntTrunc (a : PyNum) : Int :=
  a.n.tdiv a.d

def PyNum.ofInt (k : Int) : PyNum := ⟨k, 1⟩

/-- Calendar date (what `Series.dt.date` yields). -/
structure Date where
  year : Int
  month : Nat
  day : Nat
deriving DecidableEq, Repr

/-- Timestamp as produced by `pd.to_datetime`: calendar date plus
time of day in seconds. -/
structure DateTime where
  year : Int
  month : Nat
  day : Nat
  secondOfDay : Nat
deriving DecidableEq, Repr

def DateTime.toDate (d : DateTime) : Date := ⟨d.year, d.month, d.day⟩

/-- Dynamic cell value of a dataframe: missing (NaN/None), string,
number, timestamp, or calendar date. -/
inductive Value where
  | null
  | str (s : String)
  | num (q : PyNum)
  | dt (d : DateTime)
  | dateOnly (d : Date)
deriving DecidableEq, Repr

/-- Integer-valued cell, as left by `astype(int)` or `dt.year`. -/
def Value.ofInt (k : Int) : Value := .num (PyNum.ofInt k)

/-- Natural-number cell (e.g. a string length). -/
def Value.ofNat (k : Nat) : Value := .num (PyNum.ofInt (k : Int))

/- ### Character-list string utilities
`re.sub(r'\s+', ' ', s).strip()` and the string parsers are modelled on
the character list underlying a `String`, with structural recursion so
that everything evaluates inside the kernel. -/

def isWs (c : Char) : Bool := c.isWhitespace

/-- Split a character list into its maximal whitespace-free words,
accumulating the (reversed) current word. -/
def wordsAux : List Char → List Char → List (List Char)
  | [], cur => if cur.isEmpty then [] else [cur.reverse]
  | c :: cs, cur =>
    if isWs c then
      if cur.isEmpty then wordsAux cs [] else cur.reverse :: wordsAux cs []
    else
      wordsAux cs (c :: cur)

def words (l : List Char) : List (List Char) := wordsAux l []

/-- Join words with single spaces. -/
def joinWords : List (List Char) → List Char
  | [] => []
  | [w] => w
  | w :: ws => w ++ ' ' :: joinWords ws

/-- `re.sub(r'\s+', ' ', s).strip()`: collapse every whitespace run to a
single space and strip the ends. -/
def collapseWs (s : String) : String := ⟨joinWords (words s.data)⟩

/-- Digits-only string to number (the numeric core of `int(...)`). -/
def digitsToNat : List Char → Option Nat
  | [] => none
  | l => l.foldlM (fun acc c => if c.isDigit then some (acc * 10 + (c.toNat - 48)) else none) 0

/-- Split a character list on a separator character (every separator
starts a new chunk; chunks may be empty). -/
def splitOnChar (sep : Char) : List Char → List (List Char)
  | [] => [[]]
  | c :: cs =>
    match splitOnChar sep cs with
    | [] => [[c]]
    | w :: ws => if c = sep then [] :: w :: ws else (c :: w) :: ws

/-- Decimal-literal parser, modelling `pd.to_numeric(errors='coerce')`
on strings: optional sign, digits, optional fractional digits; anything
else fails (becomes NaN). -/
def parseDecimal (s : String) : Option PyNum :=
  let (sign, body) :=
    match s.data with
    | '-' :: rest => ((-1 : Int), rest)
    | l => ((1 : Int), l)
  match splitOnChar '.' body with
  | [a] => (digitsToNat a).map fun n => ⟨sign * n, 1⟩
  | [a, b] =>
    match digitsToNat a, digitsToNat b with
    | some n, some f => some ⟨sign * (n * 10 ^ b.length + f), 10 ^ b.length⟩
    | _, _ => none
  | _ => none

/-- `pd.to_numeric(errors='coerce')` on a cell: numbers pass through,
numeric strings parse, everything else (including missing) is NaN. -/
def toNumeric : Value → Option PyNum
  | .num q => some q
  | .str s => parseDecimal s
  | _ => none

/-- Date parser for `YYYY-MM-DD` with optional ` HH:MM:SS`, modelling
`pd.to_datetime(errors='coerce')` on strings. -/
def parseDateChars (l : List Char) : Option DateTime :=
  match splitOnChar ' ' l with
  | [d] => parseYmd d 0
  | [d, t] =>
    match splitOnChar ':' t with
    | [h, m, s] =>
      match digitsToNat h, digitsToNat m, digitsToNat s with
      | some h, some m, some s =>
        if h ≤ 23 ∧ m ≤ 59 ∧ s ≤ 59 then parseYmd d (h * 3600 + m * 60 + s) else none
      | _, _, _ => none
    | _ => none
  | _ => none
where
  parseYmd (d : List Char) (secs : Nat) : Option DateTime :=
    match splitOnChar '-' d with
    | [y, m, dd] =>
      match digitsToNat y, digitsToNat m, digitsToNat dd with
      | some y, some m, some dd =>
        if 1 ≤ m ∧ m ≤ 12 ∧ 1 ≤ dd ∧ dd ≤ 31 then some ⟨(y : Int), m, dd, secs⟩ else none
      | _, _, _ => none
    | _ => none

/-- `pd.to_datetime(errors='coerce')` on a cell: timestamps and dates
pass through, date strings parse, everything else is NaT. -/
def parseDateValue : Value → Option DateTime
  | .dt d => some d
  | .dateOnly d => some ⟨d.year, d.month, d.day, 0⟩
  | .str s => parseDateChars s.data
  | _ => none

/-- Python `str(...)` on a cell (only its string branch is ever reached
by the pipeline's own outputs; the other branches are a plain rendering). -/
def valueToString : Value → String
  | .null => "nan"
  | .str s => s
  | .num q => if q.d = 1 then toString q.n else toString q.n ++ "/" ++ toString q.d
  | .dt d => toString d.year ++ "-" ++ toString d.month ++ "-" ++ toString d.day
  | .dateOnly d => toString d.year ++ "-" ++ toString d.month ++ "-" ++ toString d.day

/- ### Configuration (`scripts/config.py`) -/

/-- `BANK_NAMES` from `scripts/config.py`: bank code → canonical
display name. -/
def BANK_NAMES : List (String × String) :=
  [("CBE", "Commercial Bank of Ethiopia"),
   ("BOA", "Bank of Abyssinia"),
   ("Dashen", "Dashen Bank")]

/-- `allowed_bank_codes` of the preprocessor: the keys of `APP_IDS`
(which coincide with the keys of `BANK_NAMES`). -/
def allowed_bank_codes : List String := ["CBE", "BOA", "Dashen"]

/-- First-value association-list lookup. -/
def lookupStr (m : List (String × String)) (k : String) : Option String :=
  (m.find? (fun p => p.1 = k)).map (·.2)

/- ### Tables -/

/-- A dataframe row: association list from column name to cell value.
A column missing from a row reads as `Value.null` (NaN). -/
abbrev Row : Type := List (String × Value)

/-- Read a cell; missing keys read as NaN. -/
def Row.get (r : Row) (c : String) : Value :=
  match r.find? (fun p => p.1 = c) with
  | some p => p.2
  | none => .null

/-- Write a cell: replace in place when the key exists, append otherwise. -/
def Row.set (r : Row) (c : String) (v : Value) : Row :=
  if r.any (fun p => p.1 = c) then
    r.map (fun p => if p.1 = c then (c, v) else p)
  else
    r ++ [(c, v)]

/-- A dataframe: column list plus rows. -/
structure Table where
  cols : List String
  rows : List Row
deriving DecidableEq

/-- `c in df.columns`. -/
def Table.hasCol (t : Table) (c : String) : Bool := t.cols.contains c

/-- `df[c] = f(row)` for every row: assign a column computed per row,
adding the column name when new. -/
def Table.setCol (t : Table) (c : String) (f : Row → Value) : Table :=
  { cols := if t.cols.contains c then t.cols else t.cols ++ [c],
    rows := t.rows.map (fun r => r.set c (f r)) }

/-- Keep the rows satisfying a boolean mask. -/
def Table.filterRows (t : Table) (p : Row → Bool) : Table :=
  { cols := t.cols, rows := t.rows.filter p }

/-- `df.loc[:, cs]`: project every row onto the given columns, in order. -/
def projectRow (cs : List String) (r : Row) : Row :=
  cs.map (fun c => (c, r.get c))

def Table.project (t : Table) (cs : List String) : Table :=
  { cols := cs, rows := t.rows.map (projectRow cs) }

/- ### Value ordering and row sorting
`DataFrame.sort_values` is modelled by a stable insertion sort over a
total order on cell values (NaN sorts last, as with `na_position='last'`,
in both ascending and descending key order). -/

/-- Order rank of a value constructor (numbers, strings, timestamps and
dates are each ordered within their own kind; missing sorts last). -/
def Value.rank : Value → Nat
  | .num _ => 0
  | .str _ => 1
  | .dt _ => 2
  | .dateOnly _ => 3
  | .null => 4

/-- Character-list order (byte order on code points). -/
def leChars : List Char → List Char → Bool
  | [], _ => true
  | _ :: _, [] => false
  | a :: as, b :: bs =>
    if a.toNat < b.toNat then true
    else if b.toNat < a.toNat then false
    else leChars as bs

/-- Chronological key of a calendar date. -/
def dateKey (d : Date) : Int := d.year * 10000 + (d.month : Int) * 100 + (d.day : Int)

/-- Chronological key of a timestamp. -/
def dtKey (d : DateTime) : Int := dateKey ⟨d.year, d.month, d.day⟩ * 100000 + (d.secondOfDay : Int)

/-- Total ascending order on cell values. -/
def leValue (a b : Value) : Bool :=
  if a.rank < b.rank then true
  else if b.rank < a.rank then false
  else
    match a, b with
    | .num x, .num y => PyNum.le x y
    | .str x, .str y => leChars x.data y.data
    | .dt x, .dt y => decide (dtKey x ≤ dtKey y)
    | .dateOnly x, .dateOnly y => decide (dateKey x ≤ dateKey y)
    | _, _ => true

/-- Descending order on cell values, with missing still last
(`ascending=False` together with the default `na_position='last'`). -/
def leValueDesc (a b : Value) : Bool :=
  match a, b with
  | .null, .null => true
  | .null, _ => false
  | _, .null => true
  | _, _ => leValue b a

/-- Row order for `sort_values(['bank_code', 'review_date'],
ascending=[True, False])`: bank code ascending, then review date
descending. -/
def leRowBoth (r s : Row) : Bool :=
  if leValue (r.get "bank_code") (s.get "bank_code") ∧ leValue (s.get "bank_code") (r.get "bank_code") then
    leValueDesc (r.get "review_date") (s.get "review_date")
  else
    leValue (r.get "bank_code") (s.get "bank_code")

/-- Row order for a single-column ascending sort. -/
def leRowAsc (c : String) (r s : Row) : Bool :=
  leValue (r.get c) (s.get c)

/-- Insert into a sorted list (stable: new element goes after existing
ties). -/
def insertSorted (le : Row → Row → Bool) (r : Row) : List Row → List Row
  | [] => [r]
  | s :: rest => if le r s then r :: s :: rest else s :: insertSorted le r rest

/-- Stable sort of the rows by the given order. -/
def sortRows (le : Row → Row → Bool) (l : List Row) : List Row :=
  l.foldr (insertSorted le) []

/- ### The pipeline stages (`scripts/preprocessing.py`) -/

/-- Inverse of `BANK_NAMES` (`{v: k for k, v in BANK_NAMES.items()}`). -/
def bankInverse : List (String × String) := BANK_NAMES.map (fun p => (p.2, p.1))

/-- `Series.map(inverse)` applied to a `bank_name` cell: dictionary hits
map to the bank code, everything else to NaN. -/
def inverseLookup (v : Value) : Value :=
  match v with
  | .str s =>
    match lookupStr bankInverse s with
    | some c => .str c
    | none => .null
  | _ => .null

/-- Lines 70-72 of `preprocessing.py`: if `bank_code` is absent but
`bank_name` is present, derive `bank_code` by inverse lookup (the
`fillna(self.df.get('bank_code', np.nan))` is a no-op here because the
`bank_code` column does not exist in this branch). -/
def repairBankCode (t : Table) : Table :=
  if ¬ t.hasCol "bank_code" ∧ t.hasCol "bank_name" then
    t.setCol "bank_code" (fun r => inverseLookup (r.get "bank_name"))
  else t

/-- The critical columns actually present
(`[c for c in ['review_text', 'rating', 'bank_code'] if c in self.df.columns]`). -/
def criticalCols (t : Table) : List String :=
  ["review_text", "rating", "bank_code"].filter t.hasCol

/-- Does the row have a missing value in one of the given columns
(`dropna(subset=...)` removal condition)? -/
def rowHasNullIn (cs : List String) (r : Row) : Bool :=
  cs.any (fun c => r.get c = .null)

/-- `fillna(d)` on a column when it exists, otherwise create the column
with the constant `d` (lines 82-93 of `preprocessing.py`). -/
def fillCol (t : Table) (c : String) (d : Value) : Table :=
  if t.hasCol c then
    t.setCol c (fun r => match r.get c with | .null => d | v => v)
  else
    t.setCol c (fun _ => d)

/-- `handle_missing_values` (lines 67-95): repair `bank_code`, drop rows
with missing critical values, fill the optional columns; returns the
table and the count recorded as `rows_removed_missing`. -/
def handle_missing_values (t : Table) : Table × Nat :=
  let t1 := repairBankCode t
  let crit := criticalCols t1
  let before := t1.rows.length
  let t2 := if crit.isEmpty then t1 else t1.filterRows (fun r => ¬ rowHasNullIn crit r)
  let removed := before - t2.rows.length
  let t3 := fillCol t2 "user_name" (.str "Anonymous")
  let t4 := fillCol t3 "thumbs_up" (Value.ofInt 0)
  let t5 := fillCol t4 "reply_content" (.str "")
  (t5, removed)

/-- The truncation `Series.dt.date` of a parsed timestamp cell. -/
def truncToDate : Value → Value
  | .dt d => .dateOnly d.toDate
  | v => v

/-- `dt.year` of a date cell. -/
def yearOf : Value → Value
  | .dateOnly d => Value.ofInt d.year
  | _ => .null

/-- `dt.month` of a date cell. -/
def monthOf : Value → Value
  | .dateOnly d => Value.ofInt (d.month : Int)
  | _ => .null

/-- `normalize_dates` (lines 97-111): skip when there is no
`review_date` column; otherwise parse with coercion, drop unparsable
rows, truncate to calendar dates and add `review_year`/`review_month`.
The removal count is returned (the code records no statistic for it). -/
def normalize_dates (t : Table) : Table × Nat :=
  if ¬ t.hasCol "review_date" then (t, 0)
  else
    let t1 := t.setCol "review_date" (fun r =>
      match parseDateValue (r.get "review_date") with
      | some d => .dt d
      | none => .null)
    let before := t1.rows.length
    let t2 := t1.filterRows (fun r => ¬ r.get "review_date" = .null)
    let removed := before - t2.rows.length
    let t3 := t2.setCol "review_date" (fun r => truncToDate (r.get "review_date"))
    let t4 := t3.setCol "review_year" (fun r => yearOf (r.get "review_date"))
    let t5 := t4.setCol "review_month" (fun r => monthOf (r.get "review_date"))
    (t5, removed)

/-- `clean_review_text` (lines 115-120): missing or empty becomes the
empty string, everything else is stringified and whitespace-collapsed. -/
def cleanReviewText : Value → String
  | .null => ""
  | .str s => if s = "" then "" else collapseWs s
  | v => collapseWs (valueToString v)

/-- `clean_text` (lines 113-129): the code reads
`self.df['review_text']` without an existence guard, so a table without
that column raises a `KeyError` that nothing catches; otherwise clean
every text, drop rows whose cleaned text is empty, and add
`text_length`. -/
def clean_text (t : Table) : Except String (Table × Nat) :=
  if ¬ t.hasCol "review_text" then .error "KeyError: review_text"
  else
    let t1 := t.setCol "review_text" (fun r => .str (cleanReviewText (r.get "review_text")))
    let before := t1.rows.length
    let t2 := t1.filterRows (fun r => (valueToString (r.get "review_text")).length > 0)
    let removed := before - t2.rows.length
    let t3 := t2.setCol "text_length" (fun r => Value.ofNat (valueToString (r.get "review_text")).length)
    .ok (t3, removed)

/-- The coerced integer rating of a cell:
`pd.to_numeric(errors='coerce').fillna(0).astype(int)`. -/
def coerceRating (v : Value) : Int :=
  ((toNumeric v).getD (PyNum.ofInt 0)).toIntTrunc

/-- Is a (coerced) rating cell inside the closed range `[1, 5]`? -/
def ratingOk (v : Value) : Bool :=
  match v with
  | .num q => decide (1 ≤ q.n ∧ q.n ≤ 5 ∧ q.d = 1)
  | _ => false

/-- `validate_ratings` (lines 131-144): skip when there is no `rating`
column; otherwise coerce every rating to an integer (coercion failures
become 0) and remove the rows whose rating lies outside `[1, 5]`,
recording the count as `invalid_ratings_removed`. -/
def validate_ratings (t : Table) : Table × Nat :=
  if ¬ t.hasCol "rating" then (t, 0)
  else
    let t1 := t.setCol "rating" (fun r => Value.ofInt (coerceRating (r.get "rating")))
    let invalid := t1.rows.countP (fun r => ¬ ratingOk (r.get "rating"))
    let t2 := if invalid > 0 then t1.filterRows (fun r => ratingOk (r.get "rating")) else t1
    (t2, invalid)

/-- The fixed preferred output columns (line 149). -/
def desiredCols : List String :=
  ["review_id", "review_text", "rating", "review_date", "bank_code", "bank_name", "source"]

/-- The optional extra output columns (line 151). -/
def extraCandidates : List String :=
  ["user_name", "thumbs_up", "text_length", "review_year", "review_month"]

/-- `self.df['bank_code'].map(BANK_NAMES).fillna(self.df['bank_code'])`
on one cell: known codes map to their canonical name, anything else
falls back to the `bank_code` cell itself. -/
def bankNameFor (v : Value) : Value :=
  match v with
  | .str s =>
    match lookupStr BANK_NAMES s with
    | some nm => .str nm
    | none => v
  | _ => v

/-- Python `list.insert(6, x)` (clamps to an append when the list is
shorter than the index). -/
def pyInsert6 (l : List String) (x : String) : List String :=
  l.take 6 ++ [x] ++ l.drop 6

/-- The `isin(allowed_bank_codes)` mask on a `bank_code` cell. -/
def isAllowedBank (v : Value) : Bool :=
  match v with
  | .str s => allowed_bank_codes.contains s
  | _ => false

/-- Lines 147-165 of `prepare_final_output`: choose the output columns
among those present, derive `bank_name` from `bank_code` when absent,
filter to the allow-listed banks, run the (vacuous) ensure-columns loop,
and project. Returns the projected table and the number of rows the
bank filter removed (the code records no statistic for it). -/
def prepareFinalProjection (t : Table) : Table × Nat :=
  let extras := extraCandidates.filter t.hasCol
  let cols0 := (desiredCols ++ extras).filter t.hasCol
  let derived :=
    if ¬ t.hasCol "bank_name" ∧ t.hasCol "bank_code" then
      (t.setCol "bank_name" (fun r => bankNameFor (r.get "bank_code")),
       if cols0.contains "bank_name" then cols0 else pyInsert6 cols0 "bank_name")
    else (t, cols0)
  let t1 := derived.1
  let outputColumns := derived.2
  let before := t1.rows.length
  let t2 := if t1.hasCol "bank_code" then t1.filterRows (fun r => isAllowedBank (r.get "bank_code")) else t1
  let removed := before - t2.rows.length
  let t3 := outputColumns.foldl (fun u c => if u.hasCol c then u else u.setCol c (fun _ => .null)) t2
  (t3.project outputColumns, removed)

/-- Lines 166-170: sort by `bank_code` ascending then `review_date`
descending when both are present, by the single present key ascending
otherwise, and reset the index (the index is not modelled: rows are
positional). -/
def sortFinal (t : Table) : Table :=
  let sortCols := (["bank_code", "review_date"] : List String).filter t.hasCol
  match sortCols with
  | ["bank_code", "review_date"] => { t with rows := sortRows leRowBoth t.rows }
  | [c] => { t with rows := sortRows (leRowAsc c) t.rows }
  | _ => t

/-- `prepare_final_output` (lines 146-171). -/
def prepare_final_output (t : Table) : Table × Nat :=
  let p := prepareFinalProjection t
  (sortFinal p.1, p.2)

/-- The recorded pipeline statistics (`self.stats`); a counter a skipped
stage never set reads as 0, matching the `stats.get(key, 0)` reads. -/
structure Stats where
  original_count : Nat
  rows_removed_missing : Nat
  empty_reviews_removed : Nat
  invalid_ratings_removed : Nat
  final_count : Nat
deriving DecidableEq, Repr

/-- Everything a full pipeline run produces: the final table, the
recorded statistics, and the two removal counts the code never records
(date-normalization drops and allow-list drops). -/
structure RunResult where
  table : Table
  stats : Stats
  dates_removed : Nat
  banks_removed : Nat
deriving DecidableEq

/-- `process` (lines 211-226) on an in-memory table: the stage sequence
with its statistics; a Python exception escaping a stage surfaces as an
error. Loading and saving are out of scope (the save succeeds). -/
def processRun (t : Table) : Except String RunResult :=
  let original := t.rows.length
  let m := handle_missing_values t
  let d := normalize_dates m.1
  match clean_text d.1 with
  | .error e => .error e
  | .ok c =>
    let v := validate_ratings c.1
    let f := prepare_final_output v.1
    .ok ⟨f.1, ⟨original, m.2, c.2, v.2, f.1.rows.length⟩, d.2, f.2⟩

/-- The caller-visible result of `process`: final table plus statistics. -/
def process (t : Table) : Except String (Table × Stats) :=
  (processRun t).map (fun r => (r.table, r.stats))

/- ### Generic lemmas: words and whitespace collapsing -/

/-- Every produced word is nonempty and whitespace-free. -/
theorem wordsAux_props (l cur : List Char) (hcur : ∀ c ∈ cur, isWs c = false) :
    ∀ w ∈ wordsAux l cur, w ≠ [] ∧ ∀ c ∈ w, isWs c = false := by
  induction l generalizing cur with
  | nil =>
    intro w hw
    simp only [wordsAux] at hw
    by_cases hc : cur.isEmpty
    · rw [if_pos hc] at hw
      simp at hw
    · rw [if_neg hc] at hw
      simp only [List.mem_singleton] at hw
      subst hw
      refine ⟨by simpa [List.isEmpty_iff] using hc, ?_⟩
      intro c hc2
      exact hcur c (List.mem_reverse.mp hc2)
  | cons a as ih =>
    intro w hw
    simp only [wordsAux] at hw
    by_cases ha : isWs a
    · rw [if_pos ha] at hw
      by_cases hc : cur.isEmpty
      · rw [if_pos hc] at hw
        exact ih [] (by simp) w hw
      · rw [if_neg hc] at hw
        rcases List.mem_cons.mp hw with h | h
        · subst h
          refine ⟨by simpa [List.isEmpty_iff] using hc, ?_⟩
          intro c hc2
          exact hcur c (List.mem_reverse.mp hc2)
        · exact ih [] (by simp) w h
    · rw [if_neg ha] at hw
      refine ih (a :: cur) ?_ w hw
      intro c hc
      rcases List.mem_cons.mp hc with h | h
      · subst h; simpa using ha
      · exact hcur c h

theorem words_props (l : List Char) : ∀ w ∈ words l, w ≠ [] ∧ ∀ c ∈ w, isWs c = false :=
  wordsAux_props l [] (by simp)

/-- Scanning a whitespace-free word just accumulates it. -/
theorem wordsAux_word (w l cur : List Char) (hw : ∀ c ∈ w, isWs c = false) :
    wordsAux (w ++ l) cur = wordsAux l (w.reverse ++ cur) := by
  induction w generalizing cur with
  | nil => simp
  | cons a as ih =>
    have ha : isWs a = false := hw a (by simp)
    show wordsAux (a :: (as ++ l)) cur = _
    rw [show wordsAux (a :: (as ++ l)) cur = if isWs a then (if cur.isEmpty then wordsAux (as ++ l) [] else cur.reverse :: wordsAux (as ++ l) []) else wordsAux (as ++ l) (a :: cur) from rfl]
    rw [ha]
    simp only [Bool.false_eq_true, if_false]
    rw [ih (a :: cur) (fun c hc => hw c (List.mem_cons_of_mem a hc))]
    simp

/-- Words of a space-joined word list recover the list. -/
theorem words_joinWords (ws : List (List Char))
    (h : ∀ w ∈ ws, w ≠ [] ∧ ∀ c ∈ w, isWs c = false) :
    words (joinWords ws) = ws := by
  induction ws with
  | nil => simp [words, joinWords, wordsAux]
  | cons w ws ih =>
    obtain ⟨hne, hnw⟩ := h w (by simp)
    cases ws with
    | nil =>
      show words (joinWords [w]) = [w]
      simp only [joinWords]
      unfold words
      rw [show w = w ++ [] by simp, wordsAux_word w [] [] hnw]
      simp only [wordsAux, List.append_nil]
      rw [if_neg (by simpa [List.isEmpty_iff] using hne)]
      simp
    | cons w2 ws2 =>
      show words (w ++ ' ' :: joinWords (w2 :: ws2)) = w :: w2 :: ws2
      unfold words
      rw [wordsAux_word w (' ' :: joinWords (w2 :: ws2)) [] hnw]
      simp only [wordsAux, isWs, List.append_nil]
      rw [if_pos (by norm_num [Char.isWhitespace])]
      rw [if_neg (by simpa [List.isEmpty_iff] using hne)]
      have := ih (fun u hu => h u (List.mem_cons_of_mem w hu))
      unfold words at this
      simp [this]

/-- Whitespace collapsing is idempotent. -/
theorem collapseWs_idem (s : String) : collapseWs (collapseWs s) = collapseWs s := by
  show (⟨joinWords (words (joinWords (words s.data)))⟩ : String) = ⟨joinWords (words s.data)⟩
  rw [words_joinWords (words s.data) (words_props s.data)]

/- ### Generic lemmas: rows and tables -/

theorem Row.get_nil (c : String) : Row.get [] c = .null := rfl

theorem Row.get_cons (p : String × Value) (r : Row) (c : String) :
    Row.get (p :: r) c = if p.1 = c then p.2 else Row.get r c := by
  unfold Row.get
  rw [List.find?_cons]
  by_cases h : p.1 = c
  · rw [if_pos h, show (decide (p.1 = c)) = true by simpa using h]
  · rw [if_neg h, show (decide (p.1 = c)) = false by simpa using h]

theorem Row.get_mapReplace (r : Row) (c : String) (v : Value)
    (h : r.any (fun p => p.1 = c) = true) :
    Row.get (r.map (fun p => if p.1 = c then (c, v) else p)) c = v := by
  induction r with
  | nil => simp at h
  | cons p r ih =>
    by_cases hp : p.1 = c
    · rw [List.map_cons, if_pos hp, Row.get_cons]
      simp
    · rw [List.map_cons, if_neg hp, Row.get_cons, if_neg hp]
      refine ih ?_
      simp only [List.any_cons, Bool.or_eq_true] at h
      rcases h with h | h
      · exact absurd (of_decide_eq_true h) hp
      · exact h

theorem Row.get_mapReplace_ne (r : Row) (c c0 : String) (v : Value) (h : c0 ≠ c) :
    Row.get (r.map (fun p => if p.1 = c then (c, v) else p)) c0 = Row.get r c0 := by
  induction r with
  | nil => rfl
  | cons p r ih =>
    by_cases hp : p.1 = c
    · rw [List.map_cons, if_pos hp, Row.get_cons, Row.get_cons, if_neg (Ne.symm h),
        if_neg (by rw [hp]; exact Ne.symm h)]
      exact ih
    · rw [List.map_cons, if_neg hp, Row.get_cons, Row.get_cons]
      by_cases hp0 : p.1 = c0
      · rw [if_pos hp0, if_pos hp0]
      · rw [if_neg hp0, if_neg hp0]
        exact ih

theorem Row.get_append_single (r : Row) (c : String) (v : Value) :
    Row.get (r ++ [(c, v)]) c = if r.any (fun p => p.1 = c) then Row.get r c else v := by
  induction r with
  | nil => simp [Row.get]
  | cons p r ih =>
    by_cases hp : p.1 = c
    · simp [List.cons_append, Row.get_cons, List.any_cons, hp]
    · rw [List.cons_append, Row.get_cons, if_neg hp, ih, List.any_cons,
        show (decide (p.1 = c)) = false from by simpa using hp, Bool.false_or,
        Row.get_cons, if_neg hp]

theorem Row.get_append_ne (r : Row) (c c0 : String) (v : Value) (h : c0 ≠ c) :
    Row.get (r ++ [(c, v)]) c0 = Row.get r c0 := by
  induction r with
  | nil =>
    rw [List.nil_append, Row.get_cons, if_neg (Ne.symm h)]
  | cons p r ih =>
    rw [List.cons_append, Row.get_cons, Row.get_cons]
    by_cases hp0 : p.1 = c0
    · rw [if_pos hp0, if_pos hp0]
    · rw [if_neg hp0, if_neg hp0]
      exact ih

theorem Row.get_set_self (r : Row) (c : String) (v : Value) :
    (r.set c v).get c = v := by
  unfold Row.set
  by_cases h : r.any (fun p => p.1 = c) = true
  · rw [if_pos h]; exact Row.get_mapReplace r c v h
  · rw [if_neg h, Row.get_append_single]
    rw [show (r.any (fun p => p.1 = c)) = false from by
      simp only [Bool.not_eq_true] at h
      exact h]
    simp

theorem Row.get_set_ne (r : Row) (c c0 : String) (v : Value) (h : c0 ≠ c) :
    (r.set c v).get c0 = r.get c0 := by
  unfold Row.set
  split
  · exact Row.get_mapReplace_ne r c c0 v h
  · exact Row.get_append_ne r c c0 v h

theorem projectRow_get (cs : List String) (r : Row) (c : String) :
    (projectRow cs r).get c = if cs.contains c then r.get c else .null := by
  induction cs with
  | nil => simp [projectRow, Row.get]
  | cons c0 cs ih =>
    unfold projectRow
    rw [List.map_cons, Row.get_cons]
    by_cases h : c0 = c
    · subst h
      simp
    · rw [if_neg h]
      unfold projectRow at ih
      rw [ih]
      have : ((c0 :: cs).contains c) = (cs.contains c) := by
        simp only [List.contains_cons]
        rw [show ((c == c0 : Bool)) = false by
          simp only [beq_eq_false_iff_ne]
          exact fun hh => h hh.symm]
        simp
      rw [this]

theorem Table.rows_setCol (t : Table) (c : String) (f : Row → Value) :
    (t.setCol c f).rows = t.rows.map (fun r => r.set c (f r)) := rfl

theorem Table.length_setCol (t : Table) (c : String) (f : Row → Value) :
    (t.setCol c f).rows.length = t.rows.length := by
  simp [Table.setCol]

theorem contains_append_single (l : List String) (a b : String) :
    (l ++ [a]).contains b = (l.contains b || b == a) := by
  induction l with
  | nil =>
    by_cases hab : b = a <;> simp [List.contains_cons, hab]
  | cons x l ih =>
    rw [List.cons_append, List.contains_cons, List.contains_cons, ih, Bool.or_assoc]

theorem Table.hasCol_setCol (t : Table) (c c0 : String) (f : Row → Value) :
    (t.setCol c f).hasCol c0 = (t.hasCol c0 || c0 == c) := by
  unfold Table.setCol Table.hasCol
  by_cases h : t.cols.contains c
  · simp only [if_pos h]
    by_cases h0 : c0 = c
    · subst h0
      rw [show ((c0 == c0 : Bool)) = true by simp]
      rw [show t.cols.contains c0 = true from h]
      simp
    · rw [show ((c0 == c : Bool)) = false by simp [h0]]
      simp
  · simp only [if_neg h]
    exact contains_append_single t.cols c c0

theorem Table.hasCol_filterRows (t : Table) (p : Row → Bool) (c : String) :
    (t.filterRows p).hasCol c = t.hasCol c := rfl

theorem Table.length_filterRows_le (t : Table) (p : Row → Bool) :
    (t.filterRows p).rows.length ≤ t.rows.length :=
  List.length_filter_le p t.rows

/-- Predicate on one column survives writing a different column. -/
theorem pred_rows_setCol (t : Table) (c c0 : String) (f : Row → Value)
    (P : Value → Prop) (hne : c0 ≠ c)
    (h : ∀ r ∈ t.rows, P (r.get c0)) :
    ∀ r ∈ (t.setCol c f).rows, P (r.get c0) := by
  intro r hr
  rw [Table.rows_setCol] at hr
  obtain ⟨r0, hr0, rfl⟩ := List.mem_map.mp hr
  rw [Row.get_set_ne r0 c c0 (f r0) hne]
  exact h r0 hr0

/-- Predicate on rows survives filtering. -/
theorem pred_rows_filterRows (t : Table) (p : Row → Bool) (P : Row → Prop)
    (h : ∀ r ∈ t.rows, P r) :
    ∀ r ∈ (t.filterRows p).rows, P r := by
  intro r hr
  exact h r (List.mem_of_mem_filter hr)

/- ### Generic lemmas: sorting -/

theorem insertSorted_perm (le : Row → Row → Bool) (r : Row) (l : List Row) :
    (insertSorted le r l).Perm (r :: l) := by
  induction l with
  | nil => simp [insertSorted]
  | cons s rest ih =>
    unfold insertSorted
    by_cases h : le r s
    · rw [if_pos h]
    · rw [if_neg h]
      exact (ih.cons s).trans (List.Perm.swap r s rest)

theorem sortRows_perm (le : Row → Row → Bool) (l : List Row) :
    (sortRows le l).Perm l := by
  induction l with
  | nil => simp [sortRows]
  | cons r rest ih =>
    show (insertSorted le r (sortRows le rest)).Perm (r :: rest)
    exact (insertSorted_perm le r (sortRows le rest)).trans (ih.cons r)

theorem mem_sortRows (le : Row → Row → Bool) (l : List Row) (r : Row) :
    r ∈ sortRows le l ↔ r ∈ l :=
  (sortRows_perm le l).mem_iff

theorem length_sortRows (le : Row → Row → Bool) (l : List Row) :
    (sortRows le l).length = l.length :=
  (sortRows_perm le l).length_eq

theorem insertSorted_pairwise (le : Row → Row → Bool)
    (htrans : ∀ a b c, le a b = true → le b c = true → le a c = true)
    (htotal : ∀ a b, le a b = true ∨ le b a = true)
    (r : Row) (l : List Row) (hl : l.Pairwise (fun a b => le a b = true)) :
    (insertSorted le r l).Pairwise (fun a b => le a b = true) := by
  induction l with
  | nil => simp [insertSorted]
  | cons s rest ih =>
    rw [List.pairwise_cons] at hl
    unfold insertSorted
    by_cases h : le r s
    · rw [if_pos h]
      refine List.Pairwise.cons ?_ (List.Pairwise.cons hl.1 hl.2)
      intro b hb
      rcases List.mem_cons.mp hb with hb | hb
      · subst hb; exact h
      · exact htrans r s b h (hl.1 b hb)
    · rw [if_neg h]
      refine List.Pairwise.cons ?_ (ih hl.2)
      intro b hb
      have hb2 := (insertSorted_perm le r rest).mem_iff.mp hb
      rcases List.mem_cons.mp hb2 with hb3 | hb3
      · rcases htotal r s with h2 | h2
        · exact absurd h2 h
        · rw [hb3]; exact h2
      · exact hl.1 b hb3

theorem sortRows_pairwise (le : Row → Row → Bool)
    (htrans : ∀ a b c, le a b = true → le b c = true → le a c = true)
    (htotal : ∀ a b, le a b = true ∨ le b a = true)
    (l : List Row) :
    (sortRows le l).Pairwise (fun a b => le a b = true) := by
  induction l with
  | nil => simp [sortRows]
  | cons r rest ih =>
    exact insertSorted_pairwise le htrans htotal r (sortRows le rest) ih

/- ### Comparator laws -/

theorem leChars_total (a b : List Char) : leChars a b = true ∨ leChars b a = true := by
  induction a generalizing b with
  | nil => left; rfl
  | cons x xs ih =>
    cases b with
    | nil => right; rfl
    | cons y ys =>
      unfold leChars
      rcases Nat.lt_trichotomy x.toNat y.toNat with h | h | h
      · left; simp [h, Nat.not_lt.mpr (Nat.le_of_lt h)]
      · rcases ih ys with h2 | h2
        · left; simp [h, h2]
        · right; simp [h, h2]
      · right; simp [h, Nat.not_lt.mpr (Nat.le_of_lt h)]

theorem leChars_le_cases (x y : Char) (xs ys : List Char)
    (h : leChars (x :: xs) (y :: ys) = true) :
    x.toNat < y.toNat ∨ (x.toNat = y.toNat ∧ leChars xs ys = true) := by
  unfold leChars at h
  by_cases hlt : x.toNat < y.toNat
  · left; exact hlt
  · by_cases hgt : y.toNat < x.toNat
    · rw [if_neg hlt, if_pos hgt] at h
      exact absurd h (by simp)
    · right
      refine ⟨by omega, ?_⟩
      rwa [if_neg hlt, if_neg hgt] at h

theorem leChars_trans (a b c : List Char) (h1 : leChars a b = true) (h2 : leChars b c = true) :
    leChars a c = true := by
  induction a generalizing b c with
  | nil => rfl
  | cons x xs ih =>
    cases b with
    | nil => simp [leChars] at h1
    | cons y ys =>
      cases c with
      | nil => simp [leChars] at h2
      | cons z zs =>
        rcases leChars_le_cases x y xs ys h1 with k1 | k1 <;>
          rcases leChars_le_cases y z ys zs h2 with k2 | k2
        · unfold leChars; rw [if_pos (by omega)]
        · unfold leChars; rw [if_pos (by omega)]
        · unfold leChars; rw [if_pos (by omega)]
        · unfold leChars
          rw [if_neg (by omega), if_neg (by omega)]
          exact ih ys zs k1.2 k2.2

theorem pynum_le_trans (a b c : PyNum) (h1 : PyNum.le a b = true) (h2 : PyNum.le b c = true) :
    PyNum.le a c = true := by
  unfold PyNum.le at h1 h2 ⊢
  rw [decide_eq_true_iff] at h1 h2 ⊢
  have pda : (0 : Int) < (max a.d 1 : Nat) := by positivity
  have pdb : (0 : Int) < (max b.d 1 : Nat) := by positivity
  have pdc : (0 : Int) < (max c.d 1 : Nat) := by positivity
  nlinarith [mul_le_mul_of_nonneg_right h1 (le_of_lt pdc),
    mul_le_mul_of_nonneg_right h2 (le_of_lt pda)]

theorem pynum_le_total (a b : PyNum) : PyNum.le a b = true ∨ PyNum.le b a = true := by
  unfold PyNum.le
  rw [decide_eq_true_iff, decide_eq_true_iff]
  exact le_total _ _

theorem leValue_trans (a b c : Value) (h1 : leValue a b = true) (h2 : leValue b c = true) :
    leValue a c = true := by
  cases a <;> cases b <;> cases c <;>
    simp only [leValue, Value.rank] <;>
    simp only [leValue, Value.rank] at h1 h2 <;>
    norm_num at h1 h2 ⊢ <;>
    first
      | exact pynum_le_trans _ _ _ h1 h2
      | exact leChars_trans _ _ _ h1 h2
      | omega

theorem leValue_total (a b : Value) : leValue a b = true ∨ leValue b a = true := by
  cases a <;> cases b <;>
    simp only [leValue, Value.rank] <;>
    norm_num <;>
    first
      | exact pynum_le_total _ _
      | exact leChars_total _ _
      | omega

theorem leValueDesc_trans (a b c : Value) (h1 : leValueDesc a b = true)
    (h2 : leValueDesc b c = true) : leValueDesc a c = true := by
  cases a <;> cases b <;> cases c <;>
    simp only [leValueDesc] at h1 h2 ⊢ <;>
    first
      | rfl
      | exact h1
      | exact h2
      | exact leValue_trans _ _ _ h2 h1
      | simp_all

theorem leValueDesc_total (a b : Value) : leValueDesc a b = true ∨ leValueDesc b a = true := by
  cases a <;> cases b <;>
    simp only [leValueDesc] <;>
    first
      | (left; rfl)
      | (right; rfl)
      | (rcases leValue_total _ _ with h | h
         · right; exact h
         · left; exact h)
      | simp_all

/-- Transitivity of a two-key lexicographic row order built from a total
transitive primary order and a transitive secondary order. -/
theorem lexLe_trans (le1 le2 : Value → Value → Bool)
    (t1 : ∀ x y z, le1 x y = true → le1 y z = true → le1 x z = true)
    (s2 : ∀ x y z, le2 x y = true → le2 y z = true → le2 x z = true)
    (x y z u v w : Value)
    (h1 : (if le1 x y ∧ le1 y x then le2 u v else le1 x y) = true)
    (h2 : (if le1 y z ∧ le1 z y then le2 v w else le1 y z) = true) :
    (if le1 x z ∧ le1 z x then le2 u w else le1 x z) = true := by
  by_cases exy : le1 x y = true ∧ le1 y x = true
  · rw [if_pos (by simp [exy.1, exy.2])] at h1
    by_cases eyz : le1 y z = true ∧ le1 z y = true
    · rw [if_pos (by simp [eyz.1, eyz.2])] at h2
      rw [if_pos (by simp [t1 x y z exy.1 eyz.1, t1 z y x eyz.2 exy.2])]
      exact s2 u v w h1 h2
    · rw [if_neg (by simpa using eyz)] at h2
      have hxz : le1 x z = true := t1 x y z exy.1 h2
      rw [if_neg ?_]
      · exact hxz
      · rintro ⟨-, hzx⟩
        exact eyz ⟨h2, t1 z x y hzx exy.1⟩
  · rw [if_neg (by simpa using exy)] at h1
    by_cases eyz : le1 y z = true ∧ le1 z y = true
    · rw [if_pos (by simp [eyz.1, eyz.2])] at h2
      have hxz : le1 x z = true := t1 x y z h1 eyz.1
      rw [if_neg ?_]
      · exact hxz
      · rintro ⟨-, hzx⟩
        exact exy ⟨h1, t1 y z x eyz.1 hzx⟩
    · rw [if_neg (by simpa using eyz)] at h2
      have hxz : le1 x z = true := t1 x y z h1 h2
      rw [if_neg ?_]
      · exact hxz
      · rintro ⟨-, hzx⟩
        exact exy ⟨h1, t1 y z x h2 hzx⟩

/-- Totality of the two-key lexicographic row order. -/
theorem lexLe_total (le1 le2 : Value → Value → Bool)
    (tot1 : ∀ x y, le1 x y = true ∨ le1 y x = true)
    (tot2 : ∀ x y, le2 x y = true ∨ le2 y x = true)
    (x y u v : Value) :
    (if le1 x y ∧ le1 y x then le2 u v else le1 x y) = true ∨
    (if le1 y x ∧ le1 x y then le2 v u else le1 y x) = true := by
  by_cases hxy : le1 x y = true
  · by_cases hyx : le1 y x = true
    · rw [if_pos (by simp [hxy, hyx]), if_pos (by simp [hxy, hyx])]
      exact tot2 u v
    · left
      rw [if_neg (by simp [hyx])]
      exact hxy
  · right
    rcases tot1 x y with h | h
    · exact absurd h hxy
    · rw [if_neg (by simp [hxy])]
      exact h

theorem leRowBoth_trans (a b c : Row) (h1 : leRowBoth a b = true) (h2 : leRowBoth b c = true) :
    leRowBoth a c = true := by
  unfold leRowBoth at h1 h2 ⊢
  exact lexLe_trans leValue leValueDesc leValue_trans leValueDesc_trans _ _ _ _ _ _ h1 h2

theorem leRowBoth_total (a b : Row) : leRowBoth a b = true ∨ leRowBoth b a = true := by
  unfold leRowBoth
  exact lexLe_total leValue leValueDesc leValue_total leValueDesc_total _ _ _ _

theorem leRowAsc_trans (c0 : String) (a b c : Row) (h1 : leRowAsc c0 a b = true)
    (h2 : leRowAsc c0 b c = true) : leRowAsc c0 a c = true :=
  leValue_trans _ _ _ h1 h2

theorem leRowAsc_total (c0 : String) (a b : Row) :
    leRowAsc c0 a b = true ∨ leRowAsc c0 b a = true :=
  leValue_total _ _

/-- Counting a predicate and its complement covers the list. -/
theorem countP_not_aux {α : Type} (l : List α) (p : α → Bool) :
    l.countP p + l.countP (fun a => !(p a)) = l.length := by
  induction l with
  | nil => simp
  | cons a l ih =>
    rw [List.length_cons]
    by_cases h : p a
    · rw [List.countP_cons_of_pos _ _ h, List.countP_cons_of_neg]
      · omega
      · simp [h]
    · rw [List.countP_cons_of_neg _ _ (by simpa using h), List.countP_cons_of_pos]
      · omega
      · simp [h]

/- ### Stage lemmas: lengths -/

theorem length_repairBankCode (t : Table) :
    (repairBankCode t).rows.length = t.rows.length := by
  unfold repairBankCode
  split
  · exact Table.length_setCol t _ _
  · rfl

theorem length_fillCol (t : Table) (c : String) (d : Value) :
    (fillCol t c d).rows.length = t.rows.length := by
  unfold fillCol
  split
  · exact Table.length_setCol t _ _
  · exact Table.length_setCol t _ _

theorem hmv_len (t : Table) :
    (handle_missing_values t).1.rows.length + (handle_missing_values t).2 = t.rows.length := by
  unfold handle_missing_values
  dsimp only
  split
  · simp [length_fillCol, length_repairBankCode]
  · simp only [length_fillCol, Table.hasCol_filterRows]
    have hle := Table.length_filterRows_le (repairBankCode t)
      (fun r => ¬ rowHasNullIn (criticalCols (repairBankCode t)) r)
    rw [← length_repairBankCode t]
    omega

theorem nd_len (t : Table) :
    (normalize_dates t).1.rows.length + (normalize_dates t).2 = t.rows.length := by
  unfold normalize_dates
  split
  · simp
  · dsimp only
    simp only [Table.length_setCol]
    have hle := Table.length_filterRows_le
      (t.setCol "review_date" (fun r =>
        match parseDateValue (r.get "review_date") with
        | some d => .dt d
        | none => .null))
      (fun r => ¬ r.get "review_date" = .null)
    rw [Table.length_setCol] at hle
    omega

theorem ct_len (t : Table) (p : Table × Nat) (h : clean_text t = .ok p) :
    p.1.rows.length + p.2 = t.rows.length := by
  unfold clean_text at h
  split at h
  · exact absurd h (by simp)
  · dsimp only at h
    injection h with h
    subst h
    dsimp only
    simp only [Table.length_setCol]
    have hle := Table.length_filterRows_le
      (t.setCol "review_text" (fun r => .str (cleanReviewText (r.get "review_text"))))
      (fun r => (valueToString (r.get "review_text")).length > 0)
    rw [show (t.setCol "review_text" (fun r => .str (cleanReviewText (r.get "review_text")))).rows.length
        = t.rows.length from Table.length_setCol t _ _] at hle
    omega

theorem vr_len (t : Table) :
    (validate_ratings t).1.rows.length + (validate_ratings t).2 = t.rows.length := by
  unfold validate_ratings
  split
  · simp
  · dsimp only
    split
    · next hpos =>
      show (Table.filterRows _ _).rows.length + _ = _
      unfold Table.filterRows
      dsimp only
      rw [← List.countP_eq_length_filter]
      have h2 := countP_not_aux
        (t.setCol "rating" (fun r => Value.ofInt (coerceRating (r.get "rating")))).rows
        (fun r => ratingOk (r.get "rating"))
      have h3 : List.countP (fun r => decide (¬ ratingOk (r.get "rating") = true))
          (t.setCol "rating" (fun r => Value.ofInt (coerceRating (r.get "rating")))).rows
          = List.countP (fun r => !(ratingOk (r.get "rating")))
          (t.setCol "rating" (fun r => Value.ofInt (coerceRating (r.get "rating")))).rows := by
        apply List.countP_congr
        intro a _
        by_cases h : ratingOk (a.get "rating") <;> simp [h]
      rw [h3]
      rw [Table.length_setCol] at h2
      omega
    · next hpos =>
      simp only [Nat.not_lt, Nat.le_zero] at hpos
      rw [Table.length_setCol, hpos]
      omega

theorem ensure_len (cs : List String) (t : Table) :
    (cs.foldl (fun u c => if u.hasCol c then u else u.setCol c (fun _ => .null)) t).rows.length
      = t.rows.length := by
  induction cs generalizing t with
  | nil => rfl
  | cons c cs ih =>
    rw [List.foldl_cons, ih]
    split
    · rfl
    · exact Table.length_setCol t _ _

theorem pfp_len (t : Table) :
    (prepareFinalProjection t).1.rows.length + (prepareFinalProjection t).2 = t.rows.length := by
  unfold prepareFinalProjection
  dsimp only
  split
  · dsimp only
    show ((_ : Table).project _).rows.length + _ = _
    unfold Table.project
    dsimp only
    rw [List.length_map, ensure_len]
    split
    · next =>
      have hle := Table.length_filterRows_le
        ((t.setCol "bank_name" (fun r => bankNameFor (r.get "bank_code"))))
        (fun r => isAllowedBank (r.get "bank_code"))
      rw [Table.length_setCol] at hle ⊢
      omega
    · rw [Table.length_setCol]
      omega
  · dsimp only
    show ((_ : Table).project _).rows.length + _ = _
    unfold Table.project
    dsimp only
    rw [List.length_map, ensure_len]
    split
    · have hle := Table.length_filterRows_le t (fun r => isAllowedBank (r.get "bank_code"))
      omega
    · omega

theorem pfo_len (t : Table) :
    (prepare_final_output t).1.rows.length + (prepare_final_output t).2 = t.rows.length := by
  unfold prepare_final_output
  dsimp only
  rw [show (sortFinal (prepareFinalProjection t).1).rows.length
      = (prepareFinalProjection t).1.rows.length from ?_]
  · exact pfp_len t
  · unfold sortFinal
    dsimp only
    split
    · exact length_sortRows _ _
    · exact length_sortRows _ _
    · rfl

/- ### Process decomposition and conservation -/

/-- A successful run decomposes into its stages. -/
theorem processRun_decomp (t : Table) (r : RunResult) (h : processRun t = .ok r) :
    ∃ c : Table × Nat, clean_text (normalize_dates (handle_missing_values t).1).1 = .ok c ∧
      r = ⟨(prepare_final_output (validate_ratings c.1).1).1,
           ⟨t.rows.length, (handle_missing_values t).2, c.2, (validate_ratings c.1).2,
            (prepare_final_output (validate_ratings c.1).1).1.rows.length⟩,
           (normalize_dates (handle_missing_values t).1).2,
           (prepare_final_output (validate_ratings c.1).1).2⟩ := by
  unfold processRun at h
  dsimp only at h
  cases hct : clean_text (normalize_dates (handle_missing_values t).1).1 with
  | error e => rw [hct] at h; cases h
  | ok c =>
    rw [hct] at h
    refine ⟨c, rfl, ?_⟩
    injection h with h
    exact h.symm

/-- Shared conservation ledger: the original count splits into the final
count plus the five removal sites. -/
theorem conservation_aux (t : Table) (r : RunResult) (h : processRun t = .ok r) :
    r.stats.original_count = t.rows.length ∧
    r.stats.original_count = r.stats.final_count + r.stats.rows_removed_missing
      + r.dates_removed + r.stats.empty_reviews_removed
      + r.stats.invalid_ratings_removed + r.banks_removed := by
  obtain ⟨c, hct, rfl⟩ := processRun_decomp t r h
  have h1 := hmv_len t
  have h2 := nd_len (handle_missing_values t).1
  have h3 := ct_len (normalize_dates (handle_missing_values t).1).1 c hct
  have h4 := vr_len c.1
  have h5 := pfo_len (validate_ratings c.1).1
  exact ⟨rfl, by dsimp only; omega⟩

/- ### Stage lemmas: columns -/

theorem hasCol_repairBankCode_mono (t : Table) (c : String) (h : t.hasCol c = true) :
    (repairBankCode t).hasCol c = true := by
  unfold repairBankCode
  split
  · rw [Table.hasCol_setCol, h]; rfl
  · exact h

theorem hasCol_repairBankCode_rev (t : Table) (c : String)
    (h : (repairBankCode t).hasCol c = true) : t.hasCol c = true ∨ c = "bank_code" := by
  unfold repairBankCode at h
  split at h
  · rw [Table.hasCol_setCol] at h
    rcases Bool.or_eq_true_iff.mp h with h | h
    · left; exact h
    · right; simpa using h
  · left; exact h

theorem hasCol_repairBankCode_bank (t : Table) (h : t.hasCol "bank_name" = true) :
    (repairBankCode t).hasCol "bank_code" = true := by
  unfold repairBankCode
  split
  · rw [Table.hasCol_setCol]
    simp
  · next hcond =>
    simp only [not_and, Bool.not_eq_true] at hcond
    by_cases hbc : t.hasCol "bank_code" = true
    · exact hbc
    · rw [Bool.not_eq_true] at hbc
      exact absurd h (by simp [hcond, hbc])

theorem hasCol_fillCol (t : Table) (c c0 : String) (d : Value) :
    (fillCol t c d).hasCol c0 = (t.hasCol c0 || c0 == c) := by
  unfold fillCol
  split
  · exact Table.hasCol_setCol t c c0 _
  · exact Table.hasCol_setCol t c c0 _

theorem hasCol_hmv (t : Table) (c : String) :
    (handle_missing_values t).1.hasCol c = true ↔
      ((repairBankCode t).hasCol c = true ∨ c = "user_name" ∨ c = "thumbs_up"
        ∨ c = "reply_content") := by
  unfold handle_missing_values
  dsimp only
  rw [hasCol_fillCol, hasCol_fillCol, hasCol_fillCol]
  split
  · simp [or_assoc]
  · rw [Table.hasCol_filterRows]
    simp [or_assoc]

theorem hasCol_nd (t : Table) (c : String) :
    (normalize_dates t).1.hasCol c = true ↔
      (t.hasCol c = true ∨ (t.hasCol "review_date" = true
        ∧ (c = "review_year" ∨ c = "review_month"))) := by
  unfold normalize_dates
  split
  · next hrd =>
    simp only [Bool.not_eq_true] at hrd
    simp [hrd]
  · next hrd =>
    have hrd2 : t.hasCol "review_date" = true := by simpa using hrd
    dsimp only
    rw [Table.hasCol_setCol, Table.hasCol_setCol, Table.hasCol_setCol,
      Table.hasCol_filterRows, Table.hasCol_setCol]
    simp only [Bool.or_eq_true, beq_iff_eq]
    constructor
    · rintro ((((h | h) | h) | h) | h)
      · left; exact h
      · left; rw [h]; exact hrd2
      · left; rw [h]; exact hrd2
      · right; exact ⟨hrd2, Or.inl h⟩
      · right; exact ⟨hrd2, Or.inr h⟩
    · rintro (h | ⟨-, (h | h)⟩)
      · left; left; left; left; exact h
      · left; right; exact h
      · right; exact h

theorem ct_ok_hasCol (t : Table) (p : Table × Nat) (h : clean_text t = .ok p) :
    t.hasCol "review_text" = true := by
  unfold clean_text at h
  split at h
  · exact absurd h (by simp)
  · next hc => simpa using hc

theorem hasCol_ct (t : Table) (p : Table × Nat) (h : clean_text t = .ok p) (c : String) :
    p.1.hasCol c = true ↔ (t.hasCol c = true ∨ c = "text_length") := by
  have hrt := ct_ok_hasCol t p h
  unfold clean_text at h
  split at h
  · exact absurd h (by simp)
  · dsimp only at h
    injection h with h
    subst h
    dsimp only
    rw [Table.hasCol_setCol, Table.hasCol_filterRows, Table.hasCol_setCol]
    constructor
    · intro h
      rcases Bool.or_eq_true_iff.mp h with h | h
      · rcases Bool.or_eq_true_iff.mp h with h | h
        · left; exact h
        · left
          rw [show c = "review_text" by simpa using h]
          exact hrt
      · right; simpa using h
    · intro h
      rcases h with h | h <;> simp [h]

theorem hasCol_vr (t : Table) (c : String) :
    (validate_ratings t).1.hasCol c = true ↔ t.hasCol c = true := by
  unfold validate_ratings
  split
  · simp
  · next h =>
    have hr : t.hasCol "rating" = true := by simpa using h
    dsimp only
    split
    · rw [Table.hasCol_filterRows, Table.hasCol_setCol]
      constructor
      · intro h2
        rcases Bool.or_eq_true_iff.mp h2 with h2 | h2
        · exact h2
        · rw [show c = "rating" by simpa using h2]
          exact hr
      · intro h2; simp [h2]
    · rw [Table.hasCol_setCol]
      constructor
      · intro h2
        rcases Bool.or_eq_true_iff.mp h2 with h2 | h2
        · exact h2
        · rw [show c = "rating" by simpa using h2]
          exact hr
      · intro h2; simp [h2]

/-- The output-column computation of `prepare_final_output`, named for the
statements below. -/
def outputColumnsOf (t : Table) : List String :=
  let cols0 := (desiredCols ++ extraCandidates.filter t.hasCol).filter t.hasCol
  if ¬ t.hasCol "bank_name" ∧ t.hasCol "bank_code" then
    (if cols0.contains "bank_name" then cols0 else pyInsert6 cols0 "bank_name")
  else cols0

theorem cols_pfp (t : Table) : (prepareFinalProjection t).1.cols = outputColumnsOf t := by
  unfold prepareFinalProjection outputColumnsOf
  dsimp only
  split <;> rfl

theorem cols_sortFinal (t : Table) : (sortFinal t).cols = t.cols := by
  unfold sortFinal
  dsimp only
  split
  · rfl
  · rfl
  · rfl

theorem mem_pyInsert6 (l : List String) (x c : String) :
    c ∈ pyInsert6 l x ↔ c ∈ l ∨ c = x := by
  unfold pyInsert6
  simp only [List.mem_append, List.mem_singleton]
  constructor
  · rintro ((h | h) | h)
    · left; exact List.mem_of_mem_take h
    · right; exact h
    · left; exact List.mem_of_mem_drop h
  · rintro (h | h)
    · conv at h => rw [← List.take_append_drop 6 l]
      rcases List.mem_append.mp h with h | h
      · left; left; exact h
      · right; exact h
    · left; right; exact h

theorem mem_outputColumnsOf (t : Table) (c : String)
    (hc : c ∈ desiredCols ++ extraCandidates) (h : t.hasCol c = true) :
    c ∈ outputColumnsOf t := by
  have hcols0 : c ∈ (desiredCols ++ extraCandidates.filter t.hasCol).filter t.hasCol := by
    apply List.mem_filter.mpr
    refine ⟨?_, h⟩
    rcases List.mem_append.mp hc with h2 | h2
    · exact List.mem_append.mpr (Or.inl h2)
    · exact List.mem_append.mpr (Or.inr (List.mem_filter.mpr ⟨h2, h⟩))
  unfold outputColumnsOf
  dsimp only
  split
  · split
    · exact hcols0
    · exact (mem_pyInsert6 _ _ _).mpr (Or.inl hcols0)
  · exact hcols0

theorem outputColumnsOf_sub (t : Table) (c : String) (h : c ∈ outputColumnsOf t) :
    c ∈ desiredCols ++ extraCandidates ∧ (t.hasCol c = true ∨ c = "bank_name") := by
  unfold outputColumnsOf at h
  dsimp only at h
  have base : ∀ c0, c0 ∈ (desiredCols ++ extraCandidates.filter t.hasCol).filter t.hasCol →
      c0 ∈ desiredCols ++ extraCandidates ∧ t.hasCol c0 = true := by
    intro c0 h0
    obtain ⟨h1, h2⟩ := List.mem_filter.mp h0
    refine ⟨?_, h2⟩
    rcases List.mem_append.mp h1 with h3 | h3
    · exact List.mem_append.mpr (Or.inl h3)
    · exact List.mem_append.mpr (Or.inr (List.mem_filter.mp h3).1)
  split at h
  · split at h
    · obtain ⟨h1, h2⟩ := base c h
      exact ⟨h1, Or.inl h2⟩
    · rcases (mem_pyInsert6 _ _ _).mp h with h | h
      · obtain ⟨h1, h2⟩ := base c h
        exact ⟨h1, Or.inl h2⟩
      · subst h
        exact ⟨by simp [desiredCols], Or.inr rfl⟩
  · obtain ⟨h1, h2⟩ := base c h
    exact ⟨h1, Or.inl h2⟩

/- ### Stage lemmas: row invariants -/

/-- The ensure-columns loop never touches a column that exists, so both
existence and any per-row fact about it survive. -/
theorem pred_rows_ensure (cs : List String) (t : Table) (c : String) (P : Value → Prop)
    (hc : t.hasCol c = true) (h : ∀ r ∈ t.rows, P (r.get c)) :
    (cs.foldl (fun u c2 => if u.hasCol c2 then u else u.setCol c2 (fun _ => .null)) t).hasCol c
        = true
      ∧ ∀ r ∈ (cs.foldl (fun u c2 => if u.hasCol c2 then u else u.setCol c2 (fun _ => .null))
          t).rows, P (r.get c) := by
  induction cs generalizing t with
  | nil => exact ⟨hc, h⟩
  | cons x cs ih =>
    rw [List.foldl_cons]
    by_cases hx : t.hasCol x = true
    · rw [if_pos hx]
      exact ih t hc h
    · rw [if_neg hx]
      have hne : c ≠ x := by
        intro he
        rw [he] at hc
        exact hx hc
      refine ih _ ?_ ?_
      · rw [Table.hasCol_setCol, hc]; rfl
      · exact pred_rows_setCol t x c _ P hne h

theorem mem_sortFinal (t : Table) (r : Row) : r ∈ (sortFinal t).rows ↔ r ∈ t.rows := by
  unfold sortFinal
  dsimp only
  split
  · exact mem_sortRows _ _ _
  · exact mem_sortRows _ _ _
  · exact Iff.rfl

/-- Transport of a per-row column fact through the final projection, for
any column other than the derived `bank_name`. -/
theorem pred_rows_pfp (t : Table) (c : String) (P : Value → Prop)
    (hne : c ≠ "bank_name") (hpres : t.hasCol c = true)
    (hout : c ∈ outputColumnsOf t)
    (h : ∀ r ∈ t.rows, P (r.get c)) :
    ∀ r ∈ (prepareFinalProjection t).1.rows, P (r.get c) := by
  unfold prepareFinalProjection
  unfold outputColumnsOf at hout
  dsimp only at hout ⊢
  split at hout
  · next hcond =>
    rw [if_pos hcond]
    dsimp only
    have h1 : ∀ r ∈ (t.setCol "bank_name" (fun r => bankNameFor (r.get "bank_code"))).rows,
        P (r.get c) := pred_rows_setCol t "bank_name" c _ P hne h
    have hpres1 : (t.setCol "bank_name"
        (fun r => bankNameFor (r.get "bank_code"))).hasCol c = true := by
      rw [Table.hasCol_setCol, hpres]; rfl
    intro r hr
    obtain ⟨r0, hr0, rfl⟩ := List.mem_map.mp hr
    rw [projectRow_get, if_pos (List.elem_iff.mpr hout)]
    clear hr
    revert r0 hr0
    split
    · intro r0 hr0
      refine (pred_rows_ensure _ _ c P ?_ (pred_rows_filterRows _ _ _ h1)).2 r0 hr0
      rw [Table.hasCol_filterRows]
      exact hpres1
    · intro r0 hr0
      exact (pred_rows_ensure _ _ c P hpres1 h1).2 r0 hr0
  · next hcond =>
    rw [if_neg hcond]
    dsimp only
    intro r hr
    obtain ⟨r0, hr0, rfl⟩ := List.mem_map.mp hr
    rw [projectRow_get, if_pos (List.elem_iff.mpr hout)]
    clear hr
    revert r0 hr0
    split
    · intro r0 hr0
      refine (pred_rows_ensure _ _ c P ?_ (pred_rows_filterRows _ _ _ h)).2 r0 hr0
      rw [Table.hasCol_filterRows]
      exact hpres
    · intro r0 hr0
      exact (pred_rows_ensure _ _ c P hpres h).2 r0 hr0

/-- Transport through the whole of `prepare_final_output`. -/
theorem pred_rows_pfo (t : Table) (c : String) (P : Value → Prop)
    (hne : c ≠ "bank_name") (hpres : t.hasCol c = true)
    (hout : c ∈ outputColumnsOf t)
    (h : ∀ r ∈ t.rows, P (r.get c)) :
    ∀ r ∈ (prepare_final_output t).1.rows, P (r.get c) := by
  intro r hr
  unfold prepare_final_output at hr
  dsimp only at hr
  exact pred_rows_pfp t c P hne hpres hout h r ((mem_sortFinal _ r).mp hr)

/-- Every non-`""` value of `clean_review_text` is whitespace-collapsed. -/
theorem cleanReviewText_shape (v : Value) :
    cleanReviewText v = "" ∨ ∃ x, cleanReviewText v = collapseWs x := by
  cases v with
  | null => left; rfl
  | str s =>
    by_cases h : s = ""
    · left; simp [cleanReviewText, h]
    · right; exact ⟨s, by simp [cleanReviewText, h]⟩
  | num q => right; exact ⟨_, rfl⟩
  | dt d => right; exact ⟨_, rfl⟩
  | dateOnly d => right; exact ⟨_, rfl⟩

/-- After `clean_text`, every surviving review text is a nonempty
collapse-fixed string. -/
theorem ct_rows_text (t : Table) (p : Table × Nat) (h : clean_text t = .ok p) :
    ∀ r ∈ p.1.rows, ∃ s : String, r.get "review_text" = .str s ∧ s ≠ ""
      ∧ collapseWs s = s := by
  unfold clean_text at h
  split at h
  · exact absurd h (by simp)
  · dsimp only at h
    injection h with h
    subst h
    dsimp only
    refine pred_rows_setCol _ "text_length" "review_text" _
      (fun v => ∃ s : String, v = .str s ∧ s ≠ "" ∧ collapseWs s = s) (by decide) ?_
    intro r hr
    obtain ⟨hmem, hpred⟩ := List.mem_filter.mp hr
    rw [Table.rows_setCol] at hmem
    obtain ⟨r0, hr0, rfl⟩ := List.mem_map.mp hmem
    rw [Row.get_set_self] at hpred ⊢
    refine ⟨cleanReviewText (r0.get "review_text"), rfl, ?_, ?_⟩
    · intro he
      rw [he] at hpred
      simp [valueToString] at hpred
    · rcases cleanReviewText_shape (r0.get "review_text") with hs | ⟨x, hs⟩
      · rw [hs] at hpred
        simp [valueToString] at hpred
      · rw [hs, collapseWs_idem]

/-- After `validate_ratings` (with a rating column), every surviving
rating is in range. -/
theorem vr_rows_rating (t : Table) (hr : t.hasCol "rating" = true) :
    ∀ r ∈ (validate_ratings t).1.rows, ratingOk (r.get "rating") = true := by
  unfold validate_ratings
  rw [if_neg (by simpa using hr)]
  dsimp only
  split
  · intro r hrm
    exact (List.mem_filter.mp hrm).2
  · next hpos =>
    intro r hrm
    simp only [Nat.not_lt, Nat.le_zero] at hpos
    have := List.countP_eq_zero.mp hpos r hrm
    simpa using this

theorem ratingOk_shape (v : Value) (h : ratingOk v = true) :
    ∃ k : Int, v = Value.ofInt k ∧ 1 ≤ k ∧ k ≤ 5 := by
  cases v with
  | num q =>
    simp only [ratingOk, decide_eq_true_iff] at h
    refine ⟨q.n, ?_, h.1, h.2.1⟩
    show Value.num q = Value.num ⟨q.n, 1⟩
    obtain ⟨n, d⟩ := q
    simp only at h ⊢
    rw [h.2.2]
  | null => simp [ratingOk] at h
  | str s => simp [ratingOk] at h
  | dt d => simp [ratingOk] at h
  | dateOnly d => simp [ratingOk] at h

/-- After `normalize_dates` (with a date column), every surviving
`review_date` is a calendar date. -/
theorem nd_rows_date (t : Table) (hrd : t.hasCol "review_date" = true) :
    ∀ r ∈ (normalize_dates t).1.rows, ∃ d : Date, r.get "review_date" = .dateOnly d := by
  unfold normalize_dates
  rw [if_neg (by simpa using hrd)]
  dsimp only
  refine pred_rows_setCol _ "review_month" "review_date" _
    (fun v => ∃ d : Date, v = .dateOnly d) (by decide) ?_
  refine pred_rows_setCol _ "review_year" "review_date" _
    (fun v => ∃ d : Date, v = .dateOnly d) (by decide) ?_
  intro r hr
  rw [Table.rows_setCol] at hr
  obtain ⟨r0, hr0, rfl⟩ := List.mem_map.mp hr
  rw [Row.get_set_self]
  obtain ⟨hmem, hpred⟩ := List.mem_filter.mp hr0
  rw [Table.rows_setCol] at hmem
  obtain ⟨r1, hr1, rfl⟩ := List.mem_map.mp hmem
  rw [Row.get_set_self] at hpred ⊢
  cases hp : parseDateValue (r1.get "review_date") with
  | none =>
    rw [hp] at hpred
    simp at hpred
  | some dd => exact ⟨dd.toDate, rfl⟩

/- ### Stage lemmas: more transports -/

theorem pred_rows_vr (t : Table) (c0 : String) (P : Value → Prop) (hne : c0 ≠ "rating")
    (h : ∀ r ∈ t.rows, P (r.get c0)) :
    ∀ r ∈ (validate_ratings t).1.rows, P (r.get c0) := by
  unfold validate_ratings
  split
  · exact h
  · dsimp only
    split
    · exact pred_rows_filterRows _ _ _ (pred_rows_setCol t "rating" c0 _ P hne h)
    · exact pred_rows_setCol t "rating" c0 _ P hne h

theorem pred_rows_ct (t : Table) (p : Table × Nat) (h : clean_text t = .ok p)
    (c0 : String) (P : Value → Prop) (h1 : c0 ≠ "review_text") (h2 : c0 ≠ "text_length")
    (hpred : ∀ r ∈ t.rows, P (r.get c0)) :
    ∀ r ∈ p.1.rows, P (r.get c0) := by
  unfold clean_text at h
  split at h
  · exact absurd h (by simp)
  · dsimp only at h
    injection h with h
    subst h
    dsimp only
    exact pred_rows_setCol _ "text_length" c0 _ P h2
      (pred_rows_filterRows _ _ _ (pred_rows_setCol t "review_text" c0 _ P h1 hpred))

theorem pred_rows_nd (t : Table) (c0 : String) (P : Value → Prop)
    (h1 : c0 ≠ "review_date") (h2 : c0 ≠ "review_year") (h3 : c0 ≠ "review_month")
    (h : ∀ r ∈ t.rows, P (r.get c0)) :
    ∀ r ∈ (normalize_dates t).1.rows, P (r.get c0) := by
  unfold normalize_dates
  split
  · exact h
  · dsimp only
    exact pred_rows_setCol _ "review_month" c0 _ P h3
      (pred_rows_setCol _ "review_year" c0 _ P h2
        (pred_rows_setCol _ "review_date" c0 _ P h1
          (pred_rows_filterRows _ _ _ (pred_rows_setCol t "review_date" c0 _ P h1 h))))

theorem pred_rows_fillCol (t : Table) (c c0 : String) (d : Value) (P : Value → Prop)
    (hne : c0 ≠ c) (h : ∀ r ∈ t.rows, P (r.get c0)) :
    ∀ r ∈ (fillCol t c d).rows, P (r.get c0) := by
  unfold fillCol
  split
  · exact pred_rows_setCol t c c0 _ P hne h
  · exact pred_rows_setCol t c c0 _ P hne h

theorem pred_rows_hmv (t : Table) (c0 : String) (P : Value → Prop)
    (h1 : c0 ≠ "user_name") (h2 : c0 ≠ "thumbs_up") (h3 : c0 ≠ "reply_content")
    (h : ∀ r ∈ (repairBankCode t).rows, P (r.get c0)) :
    ∀ r ∈ (handle_missing_values t).1.rows, P (r.get c0) := by
  unfold handle_missing_values
  dsimp only
  refine pred_rows_fillCol _ _ c0 _ P h3 (pred_rows_fillCol _ _ c0 _ P h2
    (pred_rows_fillCol _ _ c0 _ P h1 ?_))
  split
  · exact h
  · exact pred_rows_filterRows _ _ _ h

/-- When every output column already exists, the ensure-columns loop is
the identity. -/
theorem ensure_id (cs : List String) (t : Table) (h : ∀ c ∈ cs, t.hasCol c = true) :
    cs.foldl (fun u c => if u.hasCol c then u else u.setCol c (fun _ => .null)) t = t := by
  induction cs with
  | nil => rfl
  | cons x cs ih =>
    rw [List.foldl_cons, if_pos (h x (by simp))]
    exact ih (fun c hc => h c (List.mem_cons_of_mem x hc))

/-- Every survivor of the final projection has an allow-listed
`bank_code` (when that column is selected for output). -/
theorem pfp_rows_bank (t : Table) (hbc : t.hasCol "bank_code" = true)
    (hout : "bank_code" ∈ outputColumnsOf t) :
    ∀ r ∈ (prepareFinalProjection t).1.rows, isAllowedBank (r.get "bank_code") = true := by
  unfold prepareFinalProjection
  unfold outputColumnsOf at hout
  dsimp only at hout ⊢
  split at hout
  · next hcond =>
    rw [if_pos hcond]
    dsimp only
    have hbc1 : ((t.setCol "bank_name" (fun r => bankNameFor (r.get "bank_code"))).hasCol
        "bank_code") = true := by
      rw [Table.hasCol_setCol, hbc]; rfl
    rw [if_pos hbc1]
    intro r hr
    obtain ⟨r0, hr0, rfl⟩ := List.mem_map.mp hr
    rw [projectRow_get, if_pos (List.elem_iff.mpr hout)]
    refine (pred_rows_ensure _ _ "bank_code" (fun v => isAllowedBank v = true) ?_ ?_).2 r0 hr0
    · rw [Table.hasCol_filterRows]
      exact hbc1
    · intro r2 hr2
      exact (List.mem_filter.mp hr2).2
  · next hcond =>
    rw [if_neg hcond]
    dsimp only
    rw [if_pos hbc]
    intro r hr
    obtain ⟨r0, hr0, rfl⟩ := List.mem_map.mp hr
    rw [projectRow_get, if_pos (List.elem_iff.mpr hout)]
    refine (pred_rows_ensure _ _ "bank_code" (fun v => isAllowedBank v = true) ?_ ?_).2 r0 hr0
    · rw [Table.hasCol_filterRows]
      exact hbc
    · intro r2 hr2
      exact (List.mem_filter.mp hr2).2

/-- An allow-listed code resolves in the canonical name table. -/
theorem allowed_lookup (code : String) (h : allowed_bank_codes.contains code = true) :
    ∃ nm, lookupStr BANK_NAMES code = some nm ∧ bankNameFor (.str code) = .str nm := by
  have hmem := List.elem_iff.mp h
  unfold allowed_bank_codes at hmem
  rcases List.mem_cons.mp hmem with h1 | h1
  · exact ⟨"Commercial Bank of Ethiopia", by rw [h1]; exact ⟨rfl, rfl⟩⟩
  · rcases List.mem_cons.mp h1 with h2 | h2
    · exact ⟨"Bank of Abyssinia", by rw [h2]; exact ⟨rfl, rfl⟩⟩
    · rcases List.mem_cons.mp h2 with h3 | h3
      · exact ⟨"Dashen Bank", by rw [h3]; exact ⟨rfl, rfl⟩⟩
      · simp at h3

/-- `bank_code` joins the output columns whenever `bank_name` does,
provided the working table already satisfies the name/code implication. -/
theorem bankName_bankCode_out (t : Table)
    (himp : t.hasCol "bank_name" = true → t.hasCol "bank_code" = true) :
    "bank_name" ∈ outputColumnsOf t → "bank_code" ∈ outputColumnsOf t := by
  intro hmem
  obtain ⟨-, h2⟩ := outputColumnsOf_sub t "bank_name" hmem
  have hbc : t.hasCol "bank_code" = true := by
    rcases h2 with h2 | h2
    · exact himp h2
    · obtain ⟨h3, -⟩ := outputColumnsOf_sub t "bank_name" hmem
      by_cases hbn : t.hasCol "bank_name" = true
      · exact himp hbn
      · unfold outputColumnsOf at hmem
        dsimp only at hmem
        split at hmem
        · next hcond => exact hcond.2
        · next hcond =>
          exact absurd ((List.mem_filter.mp hmem).2) hbn
  exact mem_outputColumnsOf t "bank_code" (by simp [desiredCols, extraCandidates]) hbc

theorem isAllowedBank_shape (v : Value) (h : isAllowedBank v = true) :
    ∃ code, v = .str code ∧ allowed_bank_codes.contains code = true := by
  cases v with
  | str s => exact ⟨s, rfl, h⟩
  | null => simp [isAllowedBank] at h
  | num q => simp [isAllowedBank] at h
  | dt d => simp [isAllowedBank] at h
  | dateOnly d => simp [isAllowedBank] at h

/-- When `bank_name` is absent and `bank_code` present at final
projection, every output row carries the canonical name of its
(allow-listed) bank code. -/
theorem pfp_rows_bankname (t : Table) (hbn : t.hasCol "bank_name" = false)
    (hbc : t.hasCol "bank_code" = true) :
    ∀ r ∈ (prepareFinalProjection t).1.rows,
      ∃ code nm, r.get "bank_code" = .str code ∧ allowed_bank_codes.contains code = true ∧
        lookupStr BANK_NAMES code = some nm ∧ r.get "bank_name" = .str nm := by
  unfold prepareFinalProjection
  dsimp only
  have hcond : ¬ t.hasCol "bank_name" = true ∧ t.hasCol "bank_code" = true :=
    ⟨by simp [hbn], hbc⟩
  rw [if_pos hcond]
  dsimp only
  have hbc1 : ((t.setCol "bank_name" (fun r => bankNameFor (r.get "bank_code"))).hasCol
      "bank_code") = true := by
    rw [Table.hasCol_setCol, hbc]; rfl
  rw [if_pos hbc1]
  have hnm : (((desiredCols ++ extraCandidates.filter t.hasCol).filter t.hasCol).contains
      "bank_name") = false := by
    by_cases hc : (((desiredCols ++ extraCandidates.filter t.hasCol).filter t.hasCol).contains
        "bank_name") = true
    · exact absurd (List.mem_filter.mp (List.elem_iff.mp hc)).2 (by simp [hbn])
    · simpa using hc
  rw [if_neg (by rw [hnm]; simp)]
  have hens : ∀ c2 ∈ pyInsert6 ((desiredCols ++ extraCandidates.filter t.hasCol).filter
      t.hasCol) "bank_name",
      ((t.setCol "bank_name" (fun r => bankNameFor (r.get "bank_code"))).filterRows
        (fun r => isAllowedBank (r.get "bank_code"))).hasCol c2 = true := by
    intro c2 hc2
    rw [Table.hasCol_filterRows, Table.hasCol_setCol]
    rcases (mem_pyInsert6 _ _ _).mp hc2 with hc2 | hc2
    · rw [(List.mem_filter.mp hc2).2]; rfl
    · simp [hc2]
  rw [ensure_id _ _ hens]
  intro r hr
  obtain ⟨r0, hr0, rfl⟩ := List.mem_map.mp hr
  have hin_bc : ("bank_code") ∈ pyInsert6 ((desiredCols ++ extraCandidates.filter
      t.hasCol).filter t.hasCol) "bank_name" := by
    refine (mem_pyInsert6 _ _ _).mpr (Or.inl ?_)
    exact List.mem_filter.mpr ⟨List.mem_append.mpr (Or.inl (by simp [desiredCols])), hbc⟩
  have hin_bn : ("bank_name") ∈ pyInsert6 ((desiredCols ++ extraCandidates.filter
      t.hasCol).filter t.hasCol) "bank_name" := (mem_pyInsert6 _ _ _).mpr (Or.inr rfl)
  rw [projectRow_get, if_pos (List.elem_iff.mpr hin_bc),
    projectRow_get, if_pos (List.elem_iff.mpr hin_bn)]
  obtain ⟨hmem, hpred⟩ := List.mem_filter.mp hr0
  rw [Table.rows_setCol] at hmem
  obtain ⟨r1, hr1, rfl⟩ := List.mem_map.mp hmem
  rw [Row.get_set_ne r1 "bank_name" "bank_code" _ (by decide)] at hpred ⊢
  rw [Row.get_set_self]
  obtain ⟨code, hcode, hallowed⟩ := isAllowedBank_shape _ hpred
  obtain ⟨nm, hlook, hbmap⟩ := allowed_lookup code hallowed
  refine ⟨code, nm, hcode, hallowed, hlook, ?_⟩
  rw [hcode, hbmap]

/- ### The invariant of a successful run's output -/

/-- Everything about a successful run's output table that a second run
needs in order to remove no rows. -/
def goodOut (u : Table) : Prop :=
  u.hasCol "review_text" = true
  ∧ (u.hasCol "bank_name" = true → u.hasCol "bank_code" = true)
  ∧ ∀ r ∈ u.rows,
      (∃ s : String, r.get "review_text" = .str s ∧ s ≠ "" ∧ collapseWs s = s)
      ∧ (u.hasCol "rating" = true → ∃ k : Int, r.get "rating" = Value.ofInt k ∧ 1 ≤ k ∧ k ≤ 5)
      ∧ (u.hasCol "review_date" = true → ∃ d : Date, r.get "review_date" = .dateOnly d)
      ∧ (u.hasCol "bank_code" = true → isAllowedBank (r.get "bank_code") = true)

/-- The output of a successful run satisfies all the invariants a second
run needs. -/
theorem processRun_goodOut (t : Table) (r : RunResult) (h : processRun t = .ok r) :
    goodOut r.table := by
  obtain ⟨c, hct, rfl⟩ := processRun_decomp t r h
  dsimp only
  have hcols : (prepare_final_output (validate_ratings c.1).1).1.cols
      = outputColumnsOf (validate_ratings c.1).1 := by
    unfold prepare_final_output
    dsimp only
    rw [cols_sortFinal, cols_pfp]
  have hcolu : ∀ c0 : String,
      ((prepare_final_output (validate_ratings c.1).1).1.hasCol c0 = true
        ↔ c0 ∈ outputColumnsOf (validate_ratings c.1).1) := by
    intro c0
    unfold Table.hasCol
    rw [hcols]
    exact List.elem_iff
  have hmemiff : ∀ r2 : Row,
      (r2 ∈ (prepare_final_output (validate_ratings c.1).1).1.rows
        ↔ r2 ∈ (prepareFinalProjection (validate_ratings c.1).1).1.rows) := by
    intro r2
    unfold prepare_final_output
    dsimp only
    exact mem_sortFinal _ r2
  have hrtD := ct_ok_hasCol (normalize_dates (handle_missing_values t).1).1 c hct
  have hrtC : c.1.hasCol "review_text" = true :=
    (hasCol_ct _ c hct _).mpr (Or.inl hrtD)
  have hrtV : (validate_ratings c.1).1.hasCol "review_text" = true :=
    (hasCol_vr _ _).mpr hrtC
  have houtRT : "review_text" ∈ outputColumnsOf (validate_ratings c.1).1 :=
    mem_outputColumnsOf _ _ (by simp [desiredCols, extraCandidates]) hrtV
  have himp : (validate_ratings c.1).1.hasCol "bank_name" = true →
      (validate_ratings c.1).1.hasCol "bank_code" = true := by
    intro hbnV
    have hbnC := (hasCol_vr c.1 _).mp hbnV
    have hbnD : (normalize_dates (handle_missing_values t).1).1.hasCol "bank_name" = true := by
      rcases (hasCol_ct _ c hct _).mp hbnC with h2 | h2
      · exact h2
      · exact absurd h2 (by decide)
    have hbnM : (handle_missing_values t).1.hasCol "bank_name" = true := by
      rcases (hasCol_nd _ _).mp hbnD with h2 | ⟨-, h2⟩
      · exact h2
      · rcases h2 with h2 | h2 <;> exact absurd h2 (by decide)
    have hbnR : (repairBankCode t).hasCol "bank_name" = true := by
      rcases (hasCol_hmv t _).mp hbnM with h2 | h2
      · exact h2
      · rcases h2 with h2 | h2 | h2 <;> exact absurd h2 (by decide)
    have hbnT : t.hasCol "bank_name" = true := by
      rcases hasCol_repairBankCode_rev t _ hbnR with h2 | h2
      · exact h2
      · exact absurd h2 (by decide)
    have hbcR := hasCol_repairBankCode_bank t hbnT
    have hbcM : (handle_missing_values t).1.hasCol "bank_code" = true :=
      (hasCol_hmv t _).mpr (Or.inl hbcR)
    have hbcD : (normalize_dates (handle_missing_values t).1).1.hasCol "bank_code" = true :=
      (hasCol_nd _ _).mpr (Or.inl hbcM)
    have hbcC : c.1.hasCol "bank_code" = true :=
      (hasCol_ct _ c hct _).mpr (Or.inl hbcD)
    exact (hasCol_vr _ _).mpr hbcC
  refine ⟨(hcolu _).mpr houtRT, ?_, ?_⟩
  · intro hbnU
    exact (hcolu _).mpr (bankName_bankCode_out _ himp ((hcolu _).mp hbnU))
  · intro r2 hr2
    have hr2p := (hmemiff r2).mp hr2
    refine ⟨?_, ?_, ?_, ?_⟩
    · exact pred_rows_pfp _ "review_text"
        (fun v => ∃ s : String, v = .str s ∧ s ≠ "" ∧ collapseWs s = s)
        (by decide) hrtV houtRT
        (pred_rows_vr c.1 "review_text"
          (fun v => ∃ s : String, v = .str s ∧ s ≠ "" ∧ collapseWs s = s)
          (by decide) (ct_rows_text _ c hct)) r2 hr2p
    · intro hratU
      have houtR := (hcolu _).mp hratU
      have hratV : (validate_ratings c.1).1.hasCol "rating" = true := by
        rcases (outputColumnsOf_sub _ _ houtR).2 with h2 | h2
        · exact h2
        · exact absurd h2 (by decide)
      have hratC := (hasCol_vr c.1 _).mp hratV
      have hok := pred_rows_pfp _ "rating" (fun v => ratingOk v = true)
        (by decide) hratV houtR (vr_rows_rating c.1 hratC) r2 hr2p
      exact ratingOk_shape _ hok
    · intro hrdU
      have houtD := (hcolu _).mp hrdU
      have hrdV : (validate_ratings c.1).1.hasCol "review_date" = true := by
        rcases (outputColumnsOf_sub _ _ houtD).2 with h2 | h2
        · exact h2
        · exact absurd h2 (by decide)
      have hrdC := (hasCol_vr c.1 _).mp hrdV
      have hrdD : (normalize_dates (handle_missing_values t).1).1.hasCol "review_date"
          = true := by
        rcases (hasCol_ct _ c hct _).mp hrdC with h2 | h2
        · exact h2
        · exact absurd h2 (by decide)
      have hrdM : (handle_missing_values t).1.hasCol "review_date" = true := by
        rcases (hasCol_nd _ _).mp hrdD with h2 | ⟨-, h2⟩
        · exact h2
        · rcases h2 with h2 | h2 <;> exact absurd h2 (by decide)
      refine pred_rows_pfp _ "review_date" (fun v => ∃ d : Date, v = .dateOnly d)
        (by decide) hrdV houtD ?_ r2 hr2p
      exact pred_rows_vr c.1 "review_date" (fun v => ∃ d : Date, v = .dateOnly d) (by decide)
        (pred_rows_ct _ c hct "review_date" (fun v => ∃ d : Date, v = .dateOnly d)
          (by decide) (by decide) (nd_rows_date _ hrdM))
    · intro hbcU
      have houtB := (hcolu _).mp hbcU
      have hbcV : (validate_ratings c.1).1.hasCol "bank_code" = true := by
        rcases (outputColumnsOf_sub _ _ houtB).2 with h2 | h2
        · exact h2
        · exact absurd h2 (by decide)
      exact pfp_rows_bank _ hbcV houtB r2 hr2p

/- ### A good table passes every stage untouched -/

theorem goodOut_repair (u : Table)
    (h2 : u.hasCol "bank_name" = true → u.hasCol "bank_code" = true) :
    repairBankCode u = u := by
  unfold repairBankCode
  rw [if_neg]
  rintro ⟨hnbc, hbn⟩
  exact hnbc (h2 hbn)

theorem str_length_pos (s : String) (h : s ≠ "") : 0 < s.length := by
  cases s with
  | mk data =>
    show 0 < data.length
    cases data with
    | nil => exact absurd rfl h
    | cons a l => simp

theorem goodOut_hmv_eq (u : Table) (hg : goodOut u) :
    handle_missing_values u =
      (fillCol (fillCol (fillCol u "user_name" (.str "Anonymous")) "thumbs_up"
        (Value.ofInt 0)) "reply_content" (.str ""), 0) := by
  obtain ⟨hrt, himp, hrows⟩ := hg
  unfold handle_missing_values
  rw [goodOut_repair u himp]
  dsimp only
  have hfilter : u.filterRows (fun r => ¬ rowHasNullIn (criticalCols u) r) = u := by
    unfold Table.filterRows
    have hall : ∀ r ∈ u.rows, (decide ¬ (rowHasNullIn (criticalCols u) r = true)) = true := by
      intro r hr
      simp only [decide_eq_true_iff]
      intro hnull
      unfold rowHasNullIn at hnull
      obtain ⟨c0, hc0mem, hc0null⟩ := List.any_eq_true.mp hnull
      obtain ⟨hc0in, hc0has⟩ := List.mem_filter.mp hc0mem
      obtain ⟨htext, hrat, -, hbank⟩ := hrows r hr
      rcases List.mem_cons.mp hc0in with h3 | h3
      · obtain ⟨s, hs, -, -⟩ := htext
        rw [h3, hs] at hc0null
        simp at hc0null
      · rcases List.mem_cons.mp h3 with h4 | h4
        · obtain ⟨k, hk, -, -⟩ := hrat (by rw [← h4]; exact hc0has)
          rw [h4, hk] at hc0null
          simp [Value.ofInt] at hc0null
        · rcases List.mem_cons.mp h4 with h5 | h5
          · have hb := hbank (by rw [← h5]; exact hc0has)
            obtain ⟨code, hcode, -⟩ := isAllowedBank_shape _ hb
            rw [h5, hcode] at hc0null
            simp at hc0null
          · simp at h5
    rw [List.filter_eq_self.mpr hall]
  split
  · simp
  · rw [hfilter]
    simp

theorem goodOut_nd (T : Table)
    (hdates : T.hasCol "review_date" = true →
      ∀ r ∈ T.rows, ∃ d : Date, r.get "review_date" = .dateOnly d) :
    (normalize_dates T).2 = 0 := by
  unfold normalize_dates
  split
  · rfl
  · next hrd =>
    have hrd2 : T.hasCol "review_date" = true := by simpa using hrd
    dsimp only
    have hfill : (T.setCol "review_date" (fun r =>
        match parseDateValue (r.get "review_date") with
        | some d => .dt d
        | none => .null)).rows.filter (fun r => ¬ r.get "review_date" = .null)
        = (T.setCol "review_date" (fun r =>
          match parseDateValue (r.get "review_date") with
          | some d => .dt d
          | none => .null)).rows := by
      apply List.filter_eq_self.mpr
      intro r hr
      rw [Table.rows_setCol] at hr
      obtain ⟨r0, hr0, rfl⟩ := List.mem_map.mp hr
      obtain ⟨d, hd⟩ := hdates hrd2 r0 hr0
      simp only [decide_eq_true_iff]
      rw [Row.get_set_self, hd]
      simp [parseDateValue]
    show _ - (Table.filterRows _ _).rows.length = 0
    unfold Table.filterRows
    dsimp only
    rw [hfill, Table.length_setCol]
    omega

theorem goodOut_ct (T : Table) (hrt : T.hasCol "review_text" = true)
    (htext : ∀ r ∈ T.rows, ∃ s : String, r.get "review_text" = .str s ∧ s ≠ ""
      ∧ collapseWs s = s) :
    ∃ p : Table × Nat, clean_text T = .ok p ∧ p.2 = 0 := by
  unfold clean_text
  rw [if_neg (by simpa using hrt)]
  dsimp only
  refine ⟨_, rfl, ?_⟩
  have hfill : (T.setCol "review_text" (fun r =>
      .str (cleanReviewText (r.get "review_text")))).rows.filter
      (fun r => (valueToString (r.get "review_text")).length > 0)
      = (T.setCol "review_text" (fun r =>
        .str (cleanReviewText (r.get "review_text")))).rows := by
    apply List.filter_eq_self.mpr
    intro r hr
    rw [Table.rows_setCol] at hr
    obtain ⟨r0, hr0, rfl⟩ := List.mem_map.mp hr
    obtain ⟨s, hs, hne, hcol⟩ := htext r0 hr0
    rw [Row.get_set_self, hs]
    simp only [cleanReviewText, if_neg hne, hcol, valueToString]
    simpa using str_length_pos s hne
  show _ - (Table.filterRows _ _).rows.length = 0
  unfold Table.filterRows
  dsimp only
  rw [hfill, Table.length_setCol]
  omega

theorem coerceRating_ofInt (k : Int) : coerceRating (Value.ofInt k) = k := by
  unfold coerceRating toNumeric Value.ofInt PyNum.ofInt PyNum.toIntTrunc
  dsimp only
  exact Int.tdiv_one k

theorem goodOut_vr (T : Table)
    (hrat : T.hasCol "rating" = true →
      ∀ r ∈ T.rows, ∃ k : Int, r.get "rating" = Value.ofInt k ∧ 1 ≤ k ∧ k ≤ 5) :
    (validate_ratings T).2 = 0 := by
  unfold validate_ratings
  split
  · rfl
  · next hr =>
    have hr2 : T.hasCol "rating" = true := by simpa using hr
    dsimp only
    apply List.countP_eq_zero.mpr
    intro r hrm
    rw [Table.rows_setCol] at hrm
    obtain ⟨r0, hr0, rfl⟩ := List.mem_map.mp hrm
    obtain ⟨k, hk, hk1, hk5⟩ := hrat hr2 r0 hr0
    rw [Row.get_set_self, hk, coerceRating_ofInt]
    simp only [ratingOk, Value.ofInt, PyNum.ofInt, decide_eq_true_iff]
    simp [hk1, hk5]

theorem goodOut_pfp (T : Table)
    (hbank : T.hasCol "bank_code" = true →
      ∀ r ∈ T.rows, isAllowedBank (r.get "bank_code") = true) :
    (prepareFinalProjection T).2 = 0 := by
  unfold prepareFinalProjection
  dsimp only
  split
  · next hcond =>
    dsimp only
    split
    · next hbc1 =>
      have hpred : ∀ r ∈ (T.setCol "bank_name"
          (fun r => bankNameFor (r.get "bank_code"))).rows,
          isAllowedBank (r.get "bank_code") = true :=
        pred_rows_setCol T "bank_name" "bank_code"
          (fun r => bankNameFor (r.get "bank_code"))
          (fun v => isAllowedBank v = true) (by decide) (hbank hcond.2)
      show _ - (Table.filterRows _ _).rows.length = 0
      unfold Table.filterRows
      dsimp only
      rw [List.filter_eq_self.mpr hpred, Table.length_setCol]
      omega
    · omega
  · next hcond =>
    dsimp only
    split
    · next hbc1 =>
      show _ - (Table.filterRows _ _).rows.length = 0
      unfold Table.filterRows
      dsimp only
      rw [List.filter_eq_self.mpr (hbank hbc1)]
      omega
    · omega

theorem hasCol_fillCol_ne (t : Table) (c c0 : String) (d : Value) (h : c0 ≠ c) :
    (fillCol t c d).hasCol c0 = t.hasCol c0 := by
  rw [hasCol_fillCol, show ((c0 == c : Bool)) = false by simp [h]]
  simp

/-- A second run over a good table succeeds and removes nothing. -/
theorem goodOut_processRun (u : Table) (hg : goodOut u) :
    ∃ r2 : RunResult, processRun u = .ok r2 ∧
      r2.stats.rows_removed_missing = 0 ∧ r2.dates_removed = 0 ∧
      r2.stats.empty_reviews_removed = 0 ∧ r2.stats.invalid_ratings_removed = 0 ∧
      r2.banks_removed = 0 ∧ r2.stats.original_count = u.rows.length ∧
      r2.stats.final_count = u.rows.length := by
  obtain ⟨hrt, himp, hrows⟩ := hg
  set FT := fillCol (fillCol (fillCol u "user_name" (.str "Anonymous")) "thumbs_up"
    (Value.ofInt 0)) "reply_content" (.str "") with hFT
  have hmv_eq : handle_missing_values u = (FT, 0) := by
    rw [hFT]
    exact goodOut_hmv_eq u ⟨hrt, himp, hrows⟩
  have hColFT : ∀ c0 : String, c0 ≠ "user_name" → c0 ≠ "thumbs_up" → c0 ≠ "reply_content" →
      FT.hasCol c0 = u.hasCol c0 := by
    intro c0 h1 h2 h3
    rw [hFT, hasCol_fillCol_ne _ _ _ _ h3, hasCol_fillCol_ne _ _ _ _ h2,
      hasCol_fillCol_ne _ _ _ _ h1]
  have hRowsFT : ∀ (c0 : String) (P : Value → Prop), c0 ≠ "user_name" → c0 ≠ "thumbs_up" →
      c0 ≠ "reply_content" → (∀ r ∈ u.rows, P (r.get c0)) → ∀ r ∈ FT.rows, P (r.get c0) := by
    intro c0 P h1 h2 h3 hp
    rw [hFT]
    exact pred_rows_fillCol _ _ _ _ P h3
      (pred_rows_fillCol _ _ _ _ P h2 (pred_rows_fillCol _ _ _ _ P h1 hp))
  have hnd0 : (normalize_dates FT).2 = 0 := by
    refine goodOut_nd FT (fun hc => ?_)
    refine hRowsFT "review_date" (fun v => ∃ d : Date, v = .dateOnly d)
      (by decide) (by decide) (by decide) ?_
    intro r hr
    refine (hrows r hr).2.2.1 ?_
    rw [← hColFT "review_date" (by decide) (by decide) (by decide)]
    exact hc
  have hrtD2 : (normalize_dates FT).1.hasCol "review_text" = true := by
    refine (hasCol_nd FT _).mpr (Or.inl ?_)
    rw [hColFT "review_text" (by decide) (by decide) (by decide)]
    exact hrt
  have hTextD2 : ∀ r ∈ (normalize_dates FT).1.rows,
      ∃ s : String, r.get "review_text" = .str s ∧ s ≠ "" ∧ collapseWs s = s := by
    refine pred_rows_nd FT "review_text"
      (fun v => ∃ s : String, v = .str s ∧ s ≠ "" ∧ collapseWs s = s)
      (by decide) (by decide) (by decide) ?_
    refine hRowsFT "review_text" (fun v => ∃ s : String, v = .str s ∧ s ≠ "" ∧ collapseWs s = s)
      (by decide) (by decide) (by decide) ?_
    exact fun r hr => (hrows r hr).1
  obtain ⟨p, hp, hp0⟩ := goodOut_ct (normalize_dates FT).1 hrtD2 hTextD2
  have hColP : ∀ c0 : String, c0 ≠ "user_name" → c0 ≠ "thumbs_up" → c0 ≠ "reply_content" →
      c0 ≠ "review_year" → c0 ≠ "review_month" → c0 ≠ "review_date" → c0 ≠ "text_length" →
      p.1.hasCol c0 = true → u.hasCol c0 = true := by
    intro c0 h1 h2 h3 h4 h5 h6 h7 hc
    rcases (hasCol_ct _ p hp c0).mp hc with hc | hc
    · rcases (hasCol_nd FT c0).mp hc with hc | ⟨-, hc⟩
      · rw [hColFT c0 h1 h2 h3] at hc
        exact hc
      · rcases hc with hc | hc
        · exact absurd hc h4
        · exact absurd hc h5
    · exact absurd hc h7
  have hvr0 : (validate_ratings p.1).2 = 0 := by
    refine goodOut_vr p.1 (fun hc => ?_)
    have hcu : u.hasCol "rating" = true :=
      hColP "rating" (by decide) (by decide) (by decide) (by decide) (by decide)
        (by decide) (by decide) hc
    refine pred_rows_ct _ p hp "rating"
      (fun v => ∃ k : Int, v = Value.ofInt k ∧ 1 ≤ k ∧ k ≤ 5) (by decide) (by decide) ?_
    refine pred_rows_nd FT "rating"
      (fun v => ∃ k : Int, v = Value.ofInt k ∧ 1 ≤ k ∧ k ≤ 5)
      (by decide) (by decide) (by decide) ?_
    refine hRowsFT "rating" (fun v => ∃ k : Int, v = Value.ofInt k ∧ 1 ≤ k ∧ k ≤ 5)
      (by decide) (by decide) (by decide) ?_
    exact fun r hr => (hrows r hr).2.1 hcu
  have hpfp0 : (prepareFinalProjection (validate_ratings p.1).1).2 = 0 := by
    refine goodOut_pfp _ (fun hc => ?_)
    have hcp := (hasCol_vr p.1 "bank_code").mp hc
    have hcu : u.hasCol "bank_code" = true :=
      hColP "bank_code" (by decide) (by decide) (by decide) (by decide) (by decide)
        (by decide) (by decide) hcp
    refine pred_rows_vr p.1 "bank_code" (fun v => isAllowedBank v = true) (by decide) ?_
    refine pred_rows_ct _ p hp "bank_code" (fun v => isAllowedBank v = true)
      (by decide) (by decide) ?_
    refine pred_rows_nd FT "bank_code" (fun v => isAllowedBank v = true)
      (by decide) (by decide) (by decide) ?_
    refine hRowsFT "bank_code" (fun v => isAllowedBank v = true)
      (by decide) (by decide) (by decide) ?_
    exact fun r hr => (hrows r hr).2.2.2 hcu
  have hrun : processRun u = .ok
      ⟨(prepare_final_output (validate_ratings p.1).1).1,
       ⟨u.rows.length, 0, p.2, (validate_ratings p.1).2,
        (prepare_final_output (validate_ratings p.1).1).1.rows.length⟩,
       (normalize_dates FT).2, (prepare_final_output (validate_ratings p.1).1).2⟩ := by
    unfold processRun
    dsimp only
    rw [hmv_eq]
    dsimp only
    rw [hp]
  have hbank0 : (prepare_final_output (validate_ratings p.1).1).2 = 0 := by
    unfold prepare_final_output
    dsimp only
    exact hpfp0
  refine ⟨_, hrun, rfl, hnd0, hp0, hvr0, hbank0, rfl, ?_⟩
  have l1 := pfo_len (validate_ratings p.1).1
  have l2 := vr_len p.1
  have l3 := ct_len (normalize_dates FT).1 p hp
  have l4 := nd_len FT
  have l5 := hmv_len u
  rw [hmv_eq] at l5
  dsimp only at l1 l2 l3 l4 l5 ⊢
  omega

/- ### Claim C1 -/

/-- A one-row input whose `review_date` does not parse: the row is
removed by date normalization, which records no statistic. -/
def exC1 : Table :=
  ⟨["review_text", "rating", "bank_code", "review_date"],
   [[("review_text", .str "hi"), ("rating", Value.ofInt 5), ("bank_code", .str "CBE"),
     ("review_date", .str "not-a-date")]]⟩

def c1stats : Stats := ⟨1, 0, 0, 0, 0⟩

/-- C1 counterexample: after a successful run on `exC1`, one row was
removed (by date normalization) but the three recorded counters are all
zero, so they do not account for every removed row. -/
theorem C1_counterexample :
    (process exC1).toOption.map Prod.snd = some c1stats ∧
    ¬ (c1stats.original_count - c1stats.final_count
        = c1stats.rows_removed_missing + c1stats.empty_reviews_removed
          + c1stats.invalid_ratings_removed) := by
  constructor
  · decide
  · decide

/-- C1 (amended): after a successful pipeline run,
`final_count ≤ original_count`, and the difference decomposes as the
three recorded counters plus the two removal sites the code never
records: rows dropped by date normalization and rows dropped by the
final bank allow-list filter. -/
theorem C1_conservation (t : Table) (r : RunResult) (h : processRun t = .ok r) :
    r.stats.final_count ≤ r.stats.original_count ∧
    r.stats.original_count = r.stats.final_count + r.stats.rows_removed_missing
      + r.dates_removed + r.stats.empty_reviews_removed
      + r.stats.invalid_ratings_removed + r.banks_removed := by
  obtain ⟨-, h2⟩ := conservation_aux t r h
  exact ⟨by omega, h2⟩

def exW1 : Table :=
  ⟨["review_text", "rating", "bank_code"],
   [[("review_text", .str "nice app"), ("rating", Value.ofInt 4), ("bank_code", .str "CBE")],
    [("review_text", .str "bad"), ("rating", Value.ofInt 9), ("bank_code", .str "BOA")]]⟩

def runW1 : RunResult :=
  (processRun exW1).toOption.getD ⟨⟨[], []⟩, ⟨0, 0, 0, 0, 0⟩, 0, 0⟩

/-- C1 witness: the amended conservation ledger at a concrete two-row
input, one row of which is removed for an out-of-range rating. -/
theorem C1_conservation_witness :
    runW1.stats.final_count ≤ runW1.stats.original_count ∧
    runW1.stats.original_count = runW1.stats.final_count + runW1.stats.rows_removed_missing
      + runW1.dates_removed + runW1.stats.empty_reviews_removed
      + runW1.stats.invalid_ratings_removed + runW1.banks_removed :=
  C1_conservation exW1 runW1 rfl

/- ### Claim C2 -/

def exC2 : Table :=
  ⟨["review_text", "rating", "bank_code"],
   [[("review_text", .str "nice"), ("rating", Value.ofInt 4), ("bank_code", .str "BOA")]]⟩

def c2cols : List String :=
  ["review_text", "rating", "bank_code", "user_name", "thumbs_up", "text_length", "bank_name"]

/-- C2 counterexample: for an input without a `source` (or `review_id`,
or `review_date`) column, the final output simply omits those required
schema columns instead of creating them filled with nulls — the
ensure-columns loop never fires because the output columns were already
restricted to those present. -/
theorem C2_counterexample :
    (process exC2).toOption.map (fun q => q.1.cols) = some c2cols ∧
    "source" ∉ c2cols ∧ "source" ∈ desiredCols := by
  refine ⟨by decide, by decide, by decide⟩

/-- C2 (amended): the final output's columns are always a subset of the
fixed preferred set, but a required column absent from the input (e.g.
`review_date` when no date column existed) is omitted from the output,
not null-filled. -/
theorem C2_schema (t : Table) (r : RunResult) (h : processRun t = .ok r) :
    (∀ c0 ∈ r.table.cols, c0 ∈ desiredCols ++ extraCandidates) ∧
    ("review_date" ∉ t.cols → "review_date" ∉ r.table.cols) := by
  obtain ⟨c, hct, rfl⟩ := processRun_decomp t r h
  dsimp only
  have hcols : (prepare_final_output (validate_ratings c.1).1).1.cols
      = outputColumnsOf (validate_ratings c.1).1 := by
    unfold prepare_final_output
    dsimp only
    rw [cols_sortFinal, cols_pfp]
  rw [hcols]
  constructor
  · intro c0 hc0
    exact (outputColumnsOf_sub _ c0 hc0).1
  · intro hrd hmem
    have hsub := (outputColumnsOf_sub _ _ hmem).2
    have hrdV : (validate_ratings c.1).1.hasCol "review_date" = true := by
      rcases hsub with h2 | h2
      · exact h2
      · exact absurd h2 (by decide)
    have hrdC := (hasCol_vr c.1 _).mp hrdV
    have hrdD : (normalize_dates (handle_missing_values t).1).1.hasCol "review_date"
        = true := by
      rcases (hasCol_ct _ c hct _).mp hrdC with h2 | h2
      · exact h2
      · exact absurd h2 (by decide)
    have hrdM : (handle_missing_values t).1.hasCol "review_date" = true := by
      rcases (hasCol_nd _ _).mp hrdD with h2 | ⟨-, h2⟩
      · exact h2
      · rcases h2 with h2 | h2 <;> exact absurd h2 (by decide)
    have hrdR : (repairBankCode t).hasCol "review_date" = true := by
      rcases (hasCol_hmv t _).mp hrdM with h2 | h2
      · exact h2
      · rcases h2 with h2 | h2 | h2 <;> exact absurd h2 (by decide)
    have hrdT : t.hasCol "review_date" = true := by
      rcases hasCol_repairBankCode_rev t _ hrdR with h2 | h2
      · exact h2
      · exact absurd h2 (by decide)
    exact hrd (List.elem_iff.mp hrdT)

def exW2 : Table :=
  ⟨["review_text", "rating", "bank_code"],
   [[("review_text", .str "fine"), ("rating", Value.ofInt 3), ("bank_code", .str "Dashen")]]⟩

def runW2 : RunResult :=
  (processRun exW2).toOption.getD ⟨⟨[], []⟩, ⟨0, 0, 0, 0, 0⟩, 0, 0⟩

/-- C2 witness: for a concrete dateless input, the output columns stay
inside the fixed preferred set and `review_date` is absent. -/
theorem C2_schema_witness :
    (∀ c0 ∈ runW2.table.cols, c0 ∈ desiredCols ++ extraCandidates) ∧
    ("review_date" ∉ exW2.cols → "review_date" ∉ runW2.table.cols) :=
  C2_schema exW2 runW2 rfl

/- ### Claim C3 -/

/-- A table with no `review_text` column. -/
def exC3 : Table :=
  ⟨["rating", "bank_code"],
   [[("rating", Value.ofInt 4), ("bank_code", .str "BOA")]]⟩

/-- C3: on an input whose `review_text` column is entirely absent, the
pipeline does not degrade to a no-op: `clean_text` reads the column
unguarded, so a `KeyError` escapes `process` instead of a boolean
result — the claim is right about the intended contract and the code
violates it. -/
theorem C3_keyerror_escapes : processRun exC3 = .error "KeyError: review_text" := rfl

/- ### Claim C4 -/

theorem ratingOk_ofInt (k : Int) :
    ratingOk (Value.ofInt k) = decide (1 ≤ k ∧ k ≤ 5) := by
  unfold ratingOk Value.ofInt PyNum.ofInt
  dsimp only
  rw [decide_eq_decide]
  constructor
  · rintro ⟨h1, h2, -⟩; exact ⟨h1, h2⟩
  · rintro ⟨h1, h2⟩; exact ⟨h1, h2, rfl⟩

/-- C4: with a rating column present, every value is coerced to an
integer (failures becoming 0, removing no row at coercion time), exactly
the rows whose coerced rating falls outside the closed range [1, 5] are
removed and counted in `invalid_ratings_removed`, and every surviving
row carries an integral rating between 1 and 5. -/
theorem C4_rating_validation (t t2 : Table) (n : Nat)
    (h : validate_ratings t = (t2, n)) (hr : t.hasCol "rating" = true) :
    (∀ r ∈ t2.rows, ∃ k : Int, r.get "rating" = Value.ofInt k ∧ 1 ≤ k ∧ k ≤ 5)
    ∧ t2.rows.length + n = t.rows.length
    ∧ n = t.rows.countP (fun r => ¬ (1 ≤ coerceRating (r.get "rating")
        ∧ coerceRating (r.get "rating") ≤ 5)) := by
  have h1 : t2 = (validate_ratings t).1 := by rw [h]
  have h2 : n = (validate_ratings t).2 := by rw [h]
  refine ⟨?_, ?_, ?_⟩
  · intro r hrm
    exact ratingOk_shape _ (vr_rows_rating t hr r (by rw [← h1]; exact hrm))
  · rw [h1, h2]; exact vr_len t
  · rw [h2]
    unfold validate_ratings
    rw [if_neg (by simpa using hr)]
    dsimp only
    rw [Table.rows_setCol, List.countP_map]
    apply List.countP_congr
    intro r hrm
    simp only [Function.comp_apply]
    rw [Row.get_set_self, ratingOk_ofInt]
    by_cases hk : 1 ≤ coerceRating (r.get "rating") ∧ coerceRating (r.get "rating") ≤ 5
    · simp [hk]
    · simp [hk]

def exC4 : Table :=
  ⟨["review_text", "rating", "bank_code"],
   [[("review_text", .str "a"), ("rating", Value.ofInt 5), ("bank_code", .str "CBE")],
    [("review_text", .str "b"), ("rating", .str "junk"), ("bank_code", .str "CBE")],
    [("review_text", .str "c"), ("rating", Value.ofInt 0), ("bank_code", .str "BOA")]]⟩

def c4row : Row := (validate_ratings exC4).1.rows.getD 0 []

/-- C4 witness: on a concrete table with one valid rating, one
uncoercible rating and one zero rating, validation keeps one row (with
an integral in-range rating), removes two, and counts them. -/
theorem C4_rating_validation_witness :
    (∃ k : Int, c4row.get "rating" = Value.ofInt k ∧ 1 ≤ k ∧ k ≤ 5)
    ∧ (validate_ratings exC4).1.rows.length + (validate_ratings exC4).2 = exC4.rows.length
    ∧ (validate_ratings exC4).2 = exC4.rows.countP (fun r =>
        ¬ (1 ≤ coerceRating (r.get "rating") ∧ coerceRating (r.get "rating") ≤ 5)) := by
  have hthm := C4_rating_validation exC4 (validate_ratings exC4).1 (validate_ratings exC4).2
    rfl (by decide)
  exact ⟨hthm.1 c4row (by decide), hthm.2.1, hthm.2.2⟩

/- ### Claim C10 -/

/-- C10: a numeric but non-integral rating value is truncated toward
zero before the range check; when the truncation lands inside [1, 5] the
row is retained with the truncated rating (it fails the invalid mask, so
it is never counted in `invalid_ratings_removed`). -/
theorem C10_truncation (t : Table) (r0 : Row) (q : PyNum) (k : Int)
    (hr : t.hasCol "rating" = true) (hmem : r0 ∈ t.rows)
    (hq : toNumeric (r0.get "rating") = some q) (_hnint : q.d ≠ 1)
    (htr : q.toIntTrunc = k) (h1 : 1 ≤ k) (h5 : k ≤ 5) :
    r0.set "rating" (Value.ofInt k) ∈ (validate_ratings t).1.rows
    ∧ ratingOk (Value.ofInt k) = true := by
  have hco : coerceRating (r0.get "rating") = k := by
    unfold coerceRating
    rw [hq]
    exact htr
  have hokk : ratingOk (Value.ofInt k) = true := by
    rw [ratingOk_ofInt]
    simp [h1, h5]
  refine ⟨?_, hokk⟩
  unfold validate_ratings
  rw [if_neg (by simpa using hr)]
  dsimp only
  have hmem2 : r0.set "rating" (Value.ofInt k) ∈
      (t.setCol "rating" (fun r => Value.ofInt (coerceRating (r.get "rating")))).rows := by
    rw [Table.rows_setCol]
    refine List.mem_map.mpr ⟨r0, hmem, ?_⟩
    rw [hco]
  split
  · refine List.mem_filter.mpr ⟨hmem2, ?_⟩
    rw [Row.get_set_self]
    exact hokk
  · exact hmem2

def exC10 : Table :=
  ⟨["review_text", "rating", "bank_code"],
   [[("review_text", .str "meh"), ("rating", .str "4.7"), ("bank_code", .str "CBE")]]⟩

def c10row : Row :=
  [("review_text", .str "meh"), ("rating", .str "4.7"), ("bank_code", .str "CBE")]

/-- C10 witness: the string rating "4.7" parses to 47/10, truncates to
4, and the row survives validation with rating 4. -/
theorem C10_truncation_witness :
    c10row.set "rating" (Value.ofInt 4) ∈ (validate_ratings exC10).1.rows
    ∧ ratingOk (Value.ofInt 4) = true :=
  C10_truncation exC10 c10row ⟨47, 10⟩ 4 (by decide) (by decide) (by decide) (by decide)
    (by decide) (by decide) (by decide)

/- ### Claim C5 -/

def exC5 : Table :=
  ⟨["review_text", "rating", "bank_code"],
   [[("review_text", .str "good app"), ("rating", Value.ofInt 5), ("bank_code", .str "CBE")]]⟩

def c5out1 : Table := ((process exC5).toOption.map Prod.fst).getD ⟨[], []⟩

def c5out2 : Table := ((process c5out1).toOption.map Prod.fst).getD ⟨[], []⟩

/-- C5 counterexample: on a first run the derived `bank_name` column is
appended near the end of the column list (python `insert(6, ...)` past
the end), while a second run finds `bank_name` present and places it in
canonical desired order; both runs succeed but the two outputs differ,
so the rerun is not byte-for-byte equivalent. -/
theorem C5_counterexample :
    (process exC5).toOption.map Prod.fst = some c5out1 ∧
    (process c5out1).toOption.map Prod.fst = some c5out2 ∧
    c5out1.cols = ["review_text", "rating", "bank_code", "user_name", "thumbs_up",
      "text_length", "bank_name"] ∧
    c5out2.cols = ["review_text", "rating", "bank_code", "bank_name", "user_name",
      "thumbs_up", "text_length"] ∧
    c5out1 ≠ c5out2 := by
  refine ⟨by decide, by decide, by decide, by decide, by decide⟩

/-- C5 (amended): running the pipeline a second time on its own output
succeeds and removes zero additional rows — every removal site (missing
criticals, unparsable dates, empty texts, invalid ratings, allow-list
filter) removes nothing and the second run's final count equals its
original count. The output need not be byte-for-byte identical: when
`bank_name` was derived in the first run its column position differs
between runs. -/
theorem C5_idempotent_rows (t : Table) (r : RunResult) (h : processRun t = .ok r) :
    ∃ r2 : RunResult, processRun r.table = .ok r2 ∧
      r2.stats.rows_removed_missing = 0 ∧ r2.dates_removed = 0 ∧
      r2.stats.empty_reviews_removed = 0 ∧ r2.stats.invalid_ratings_removed = 0 ∧
      r2.banks_removed = 0 ∧ r2.stats.final_count = r2.stats.original_count ∧
      r2.stats.original_count = r.table.rows.length := by
  obtain ⟨r2, hrun, h1, h2, h3, h4, h5, h6, h7⟩ :=
    goodOut_processRun r.table (processRun_goodOut t r h)
  exact ⟨r2, hrun, h1, h2, h3, h4, h5, by omega, h6⟩

def runC5 : RunResult :=
  (processRun exC5).toOption.getD ⟨⟨[], []⟩, ⟨0, 0, 0, 0, 0⟩, 0, 0⟩

/-- C5 witness: the zero-removal rerun property at the concrete input
`exC5`. -/
theorem C5_idempotent_rows_witness :
    ∃ r2 : RunResult, processRun runC5.table = .ok r2 ∧
      r2.stats.rows_removed_missing = 0 ∧ r2.dates_removed = 0 ∧
      r2.stats.empty_reviews_removed = 0 ∧ r2.stats.invalid_ratings_removed = 0 ∧
      r2.banks_removed = 0 ∧ r2.stats.final_count = r2.stats.original_count ∧
      r2.stats.original_count = runC5.table.rows.length :=
  C5_idempotent_rows exC5 runC5 rfl

/- ### Claim C6 -/

def exC6 : Table :=
  ⟨["review_text", "rating", "bank_code", "bank_name"],
   [[("review_text", .str "ok fine"), ("rating", Value.ofInt 3), ("bank_code", .str "CBE"),
     ("bank_name", .str "Wrong Name")]]⟩

/-- C6 counterexample: when the input already has a `bank_name` column
with a non-canonical value, the pipeline passes it through unchanged —
the output row's `bank_name` is not the canonical display name that the
configured table assigns to its `bank_code`. -/
theorem C6_counterexample :
    (process exC6).toOption.map (fun q => q.1.rows.map (fun r =>
      (r.get "bank_code", r.get "bank_name")))
      = some [(.str "CBE", .str "Wrong Name")] ∧
    lookupStr BANK_NAMES "CBE" = some "Commercial Bank of Ethiopia" ∧
    ("Wrong Name" : String) ≠ "Commercial Bank of Ethiopia" := by
  refine ⟨by decide, by decide, by decide⟩

/-- C6 (amended): `bank_name` is derived from `bank_code` only when the
working table reaching final projection has no `bank_name` column; in
that case every output row's `bank_name` is the canonical display name
assigned to its `bank_code` (which survives the allow-list filter).
When a `bank_name` column is present, its values pass through
unchanged. -/
theorem C6_bankname_derivation (t : Table) (hbn : t.hasCol "bank_name" = false)
    (hbc : t.hasCol "bank_code" = true) :
    ∀ r ∈ (prepare_final_output t).1.rows,
      ∃ code nm, r.get "bank_code" = .str code ∧ lookupStr BANK_NAMES code = some nm
        ∧ r.get "bank_name" = .str nm := by
  intro r hr
  unfold prepare_final_output at hr
  dsimp only at hr
  obtain ⟨code, nm, h1, -, h3, h4⟩ :=
    pfp_rows_bankname t hbn hbc r ((mem_sortFinal _ r).mp hr)
  exact ⟨code, nm, h1, h3, h4⟩

def exW6 : Table :=
  ⟨["review_text", "rating", "bank_code"],
   [[("review_text", .str "good"), ("rating", Value.ofInt 5), ("bank_code", .str "Dashen")]]⟩

def c6wrow : Row := (prepare_final_output exW6).1.rows.getD 0 []

/-- C6 witness: for a concrete table without a `bank_name` column, the
single output row carries the canonical name of its bank code. -/
theorem C6_bankname_derivation_witness :
    ∃ code nm, c6wrow.get "bank_code" = .str code
      ∧ lookupStr BANK_NAMES code = some nm ∧ c6wrow.get "bank_name" = .str nm :=
  C6_bankname_derivation exW6 (by decide) (by decide) c6wrow (by decide)

/- ### Claim C7 -/

/-- C7: missing-value repair drops exactly the rows with a null in one
of the critical columns actually present (computed after the bank-code
repair step), records that count, drops nothing when no critical column
exists, and the optional-column fills never remove a row; every
surviving row is non-null in all present critical columns. -/
theorem C7_missing_values (t t2 : Table) (n : Nat)
    (h : handle_missing_values t = (t2, n)) :
    n = (repairBankCode t).rows.countP (rowHasNullIn (criticalCols (repairBankCode t)))
    ∧ (criticalCols (repairBankCode t) = [] → n = 0)
    ∧ t2.rows.length + n = t.rows.length
    ∧ ∀ r ∈ t2.rows, ∀ c0 ∈ criticalCols (repairBankCode t), ¬ r.get c0 = .null := by
  have h1 : t2 = (handle_missing_values t).1 := by rw [h]
  have h2 : n = (handle_missing_values t).2 := by rw [h]
  have hchar : (handle_missing_values t).2
      = (repairBankCode t).rows.countP (rowHasNullIn (criticalCols (repairBankCode t))) := by
    unfold handle_missing_values
    dsimp only
    split
    · next hemp =>
      have hz : (repairBankCode t).rows.countP
          (rowHasNullIn (criticalCols (repairBankCode t))) = 0 := by
        apply List.countP_eq_zero.mpr
        intro r hrm
        rw [List.isEmpty_iff.mp hemp]
        simp [rowHasNullIn]
      omega
    · have e1 : ((repairBankCode t).rows.filter (fun r =>
          ¬ rowHasNullIn (criticalCols (repairBankCode t)) r)).length
          = (repairBankCode t).rows.countP (fun r =>
            !(rowHasNullIn (criticalCols (repairBankCode t)) r)) := by
        rw [← List.countP_eq_length_filter]
        apply List.countP_congr
        intro r hrm
        by_cases hx : rowHasNullIn (criticalCols (repairBankCode t)) r <;> simp [hx]
      have e2 := countP_not_aux (repairBankCode t).rows
        (rowHasNullIn (criticalCols (repairBankCode t)))
      show (repairBankCode t).rows.length - (Table.filterRows _ _).rows.length = _
      unfold Table.filterRows
      dsimp only
      rw [e1]
      omega
  refine ⟨by rw [h2, hchar], ?_, ?_, ?_⟩
  · intro hc
    rw [h2, hchar, hc]
    apply List.countP_eq_zero.mpr
    intro r hrm
    simp [rowHasNullIn]
  · rw [h1, h2]
    exact hmv_len t
  · rw [h1]
    intro r hr c0 hc0
    have hc0L : c0 = "review_text" ∨ c0 = "rating" ∨ c0 = "bank_code" := by
      have := (List.mem_filter.mp hc0).1
      rcases List.mem_cons.mp this with h3 | h3
      · left; exact h3
      · rcases List.mem_cons.mp h3 with h4 | h4
        · right; left; exact h4
        · rcases List.mem_cons.mp h4 with h5 | h5
          · right; right; exact h5
          · simp at h5
    have ne1 : c0 ≠ "user_name" := by rcases hc0L with h3 | h3 | h3 <;> (rw [h3]; decide)
    have ne2 : c0 ≠ "thumbs_up" := by rcases hc0L with h3 | h3 | h3 <;> (rw [h3]; decide)
    have ne3 : c0 ≠ "reply_content" := by rcases hc0L with h3 | h3 | h3 <;> (rw [h3]; decide)
    revert r hr
    show ∀ r ∈ (handle_missing_values t).1.rows, ¬ r.get c0 = .null
    unfold handle_missing_values
    dsimp only
    refine pred_rows_fillCol _ _ c0 _ (fun v => ¬ v = .null) ne3
      (pred_rows_fillCol _ _ c0 _ (fun v => ¬ v = .null) ne2
        (pred_rows_fillCol _ _ c0 _ (fun v => ¬ v = .null) ne1 ?_))
    split
    · next hemp =>
      rw [List.isEmpty_iff.mp hemp] at hc0
      simp at hc0
    · intro r0 hr0
      have hpred := (List.mem_filter.mp hr0).2
      simp only [decide_eq_true_iff] at hpred
      unfold rowHasNullIn at hpred
      have hall : ∀ x ∈ criticalCols (repairBankCode t), ¬ r0.get x = Value.null := by
        simpa using hpred
      exact hall c0 hc0

def exC7 : Table :=
  ⟨["review_text", "rating", "bank_code"],
   [[("review_text", .str "x"), ("rating", Value.ofInt 4), ("bank_code", .str "CBE")],
    [("review_text", .str "y"), ("rating", .null), ("bank_code", .str "CBE")]]⟩

def c7row : Row := (handle_missing_values exC7).1.rows.getD 0 []

/-- C7 witness: on a concrete table with one null rating, exactly that
row is dropped and counted, and the surviving row is non-null in every
critical column. -/
theorem C7_missing_values_witness :
    (handle_missing_values exC7).2
      = (repairBankCode exC7).rows.countP (rowHasNullIn (criticalCols (repairBankCode exC7)))
    ∧ (handle_missing_values exC7).1.rows.length + (handle_missing_values exC7).2
      = exC7.rows.length
    ∧ ¬ c7row.get "rating" = .null := by
  have hthm := C7_missing_values exC7 (handle_missing_values exC7).1
    (handle_missing_values exC7).2 rfl
  exact ⟨hthm.1, hthm.2.2.1, hthm.2.2.2 c7row (by decide) "rating" (by decide)⟩

/- ### Claim C8 -/

/-- C8: with no `review_date` column, date normalization is the
identity (not an error); otherwise exactly the rows whose date fails to
parse are removed (never defaulted), surviving dates are truncated to
calendar-date granularity, and integer `review_year`/`review_month`
columns are added. -/
theorem C8_date_normalization (t : Table) :
    (t.hasCol "review_date" = false → normalize_dates t = (t, 0))
    ∧ (t.hasCol "review_date" = true →
        (normalize_dates t).2 = t.rows.countP (fun r =>
          (parseDateValue (r.get "review_date")).isNone)
        ∧ (normalize_dates t).1.rows.length + (normalize_dates t).2 = t.rows.length
        ∧ (normalize_dates t).1.hasCol "review_year" = true
        ∧ (normalize_dates t).1.hasCol "review_month" = true
        ∧ (∀ r ∈ (normalize_dates t).1.rows, ∃ d : Date,
            r.get "review_date" = .dateOnly d
            ∧ r.get "review_year" = Value.ofInt d.year
            ∧ r.get "review_month" = Value.ofInt (d.month : Int))
        ∧ (∀ r0 ∈ t.rows, ∀ dt0 : DateTime,
            parseDateValue (r0.get "review_date") = some dt0 →
            ∃ r ∈ (normalize_dates t).1.rows,
              r.get "review_date" = .dateOnly dt0.toDate)) := by
  constructor
  · intro hno
    unfold normalize_dates
    rw [if_pos (by simp [hno])]
  · intro hrd
    refine ⟨?_, nd_len t, ?_, ?_, ?_, ?_⟩
    · unfold normalize_dates
      rw [if_neg (by simpa using hrd)]
      dsimp only
      show _ - (Table.filterRows _ _).rows.length = _
      unfold Table.filterRows
      dsimp only
      rw [Table.length_setCol]
      have e1 : ((t.setCol "review_date" (fun r =>
          match parseDateValue (r.get "review_date") with
          | some d => Value.dt d
          | none => Value.null)).rows.filter (fun r => ¬ r.get "review_date" = .null)).length
          = t.rows.countP (fun r => !((parseDateValue (r.get "review_date")).isNone)) := by
        rw [← List.countP_eq_length_filter, Table.rows_setCol, List.countP_map]
        apply List.countP_congr
        intro r hrm
        simp only [Function.comp_apply]
        rw [Row.get_set_self]
        cases hp : parseDateValue (r.get "review_date") <;> simp
      have e2 := countP_not_aux t.rows (fun r => (parseDateValue (r.get "review_date")).isNone)
      rw [e1]
      omega
    · exact (hasCol_nd t _).mpr (Or.inr ⟨hrd, Or.inl rfl⟩)
    · exact (hasCol_nd t _).mpr (Or.inr ⟨hrd, Or.inr rfl⟩)
    · unfold normalize_dates
      rw [if_neg (by simpa using hrd)]
      dsimp only
      intro r hr
      rw [Table.rows_setCol] at hr
      obtain ⟨r4, hr4, rfl⟩ := List.mem_map.mp hr
      rw [Table.rows_setCol] at hr4
      obtain ⟨r3, hr3, rfl⟩ := List.mem_map.mp hr4
      rw [Table.rows_setCol] at hr3
      obtain ⟨r2, hr2, rfl⟩ := List.mem_map.mp hr3
      obtain ⟨hmem2, hpred2⟩ := List.mem_filter.mp hr2
      rw [Table.rows_setCol] at hmem2
      obtain ⟨r1, hr1, rfl⟩ := List.mem_map.mp hmem2
      rw [Row.get_set_self] at hpred2
      cases hp : parseDateValue (r1.get "review_date") with
      | none =>
        rw [hp] at hpred2
        simp at hpred2
      | some dd =>
        refine ⟨dd.toDate, ?_, ?_, ?_⟩
        · rw [Row.get_set_ne _ "review_month" "review_date" _ (by decide)]
          rw [Row.get_set_ne _ "review_year" "review_date" _ (by decide)]
          rw [Row.get_set_self]
          rw [Row.get_set_self]
          rfl
        · rw [Row.get_set_ne _ "review_month" "review_year" _ (by decide)]
          rw [Row.get_set_self]
          rw [Row.get_set_self]
          rw [Row.get_set_self]
          rfl
        · rw [Row.get_set_self]
          rw [Row.get_set_ne _ "review_year" "review_date" _ (by decide)]
          rw [Row.get_set_self]
          rw [Row.get_set_self]
          rfl
    · unfold normalize_dates
      rw [if_neg (by simpa using hrd)]
      dsimp only
      intro r0 hr0 dt0 hp
      have m1 : r0.set "review_date" (match parseDateValue (r0.get "review_date") with
          | some d => Value.dt d
          | none => Value.null) ∈ (t.setCol "review_date" (fun r =>
            match parseDateValue (r.get "review_date") with
            | some d => Value.dt d
            | none => Value.null)).rows := by
        rw [Table.rows_setCol]
        exact List.mem_map_of_mem _ hr0
      have m2 : r0.set "review_date" (match parseDateValue (r0.get "review_date") with
          | some d => Value.dt d
          | none => Value.null) ∈ ((t.setCol "review_date" (fun r =>
            match parseDateValue (r.get "review_date") with
            | some d => Value.dt d
            | none => Value.null)).filterRows
            (fun r => ¬ r.get "review_date" = .null)).rows := by
        refine List.mem_filter.mpr ⟨m1, ?_⟩
        rw [Row.get_set_self, hp]
        simp
      have m3 := List.mem_map_of_mem
        (fun r => r.set "review_date" (truncToDate (r.get "review_date"))) m2
      have m4 := List.mem_map_of_mem
        (fun r => r.set "review_year" (yearOf (r.get "review_date"))) m3
      have m5 := List.mem_map_of_mem
        (fun r => r.set "review_month" (monthOf (r.get "review_date"))) m4
      refine ⟨_, m5, ?_⟩
      rw [Row.get_set_ne _ "review_month" "review_date" _ (by decide)]
      rw [Row.get_set_ne _ "review_year" "review_date" _ (by decide)]
      rw [Row.get_set_self]
      rw [Row.get_set_self]
      rw [hp]
      rfl

def exC8 : Table :=
  ⟨["review_text", "review_date"],
   [[("review_text", .str "a"), ("review_date", .str "2023-06-05 13:01:02")],
    [("review_text", .str "b"), ("review_date", .str "garbage")]]⟩

def exC8b : Table := ⟨["review_text"], [[("review_text", .str "a")]]⟩

def c8row : Row := (normalize_dates exC8).1.rows.getD 0 []

/-- C8 witness: on a concrete two-row table one date parses (and is
truncated, with year and month derived) and one does not (and its row
is removed, uncounted by any statistic); a dateless table passes
through unchanged. -/
theorem C8_date_normalization_witness :
    normalize_dates exC8b = (exC8b, 0)
    ∧ (normalize_dates exC8).2 = exC8.rows.countP (fun r =>
        (parseDateValue (r.get "review_date")).isNone)
    ∧ (normalize_dates exC8).1.rows.length + (normalize_dates exC8).2 = exC8.rows.length
    ∧ (normalize_dates exC8).1.hasCol "review_year" = true
    ∧ (∃ d : Date, c8row.get "review_date" = .dateOnly d
        ∧ c8row.get "review_year" = Value.ofInt d.year
        ∧ c8row.get "review_month" = Value.ofInt (d.month : Int))
    ∧ (∃ r ∈ (normalize_dates exC8).1.rows,
        r.get "review_date" = .dateOnly (DateTime.toDate ⟨2023, 6, 5, 46862⟩)) := by
  have ha := C8_date_normalization exC8
  have hb := C8_date_normalization exC8b
  have hc := ha.2 (by decide)
  refine ⟨hb.1 (by decide), hc.1, hc.2.1, hc.2.2.1, ?_, ?_⟩
  · exact hc.2.2.2.2.1 c8row (by decide)
  · exact hc.2.2.2.2.2 (exC8.rows.getD 0 []) (by decide) ⟨2023, 6, 5, 46862⟩ (by decide)

/- ### Claim C9 -/

/-- C9: the final stage sorts the projected table by `bank_code`
ascending then `review_date` descending when both key columns are
present, by the single present key ascending otherwise, and leaves the
rows untouched when neither is present (the dropped pandas index is not
modelled: rows are positional). -/
theorem C9_final_sorting (t : Table) :
    prepare_final_output t
      = (sortFinal (prepareFinalProjection t).1, (prepareFinalProjection t).2)
    ∧ ((prepareFinalProjection t).1.hasCol "bank_code" = true →
        (prepareFinalProjection t).1.hasCol "review_date" = true →
        (prepare_final_output t).1.rows.Pairwise (fun a b => leRowBoth a b = true)
        ∧ (prepare_final_output t).1.rows.Perm (prepareFinalProjection t).1.rows)
    ∧ ((prepareFinalProjection t).1.hasCol "bank_code" = true →
        (prepareFinalProjection t).1.hasCol "review_date" = false →
        (prepare_final_output t).1.rows.Pairwise (fun a b => leRowAsc "bank_code" a b = true)
        ∧ (prepare_final_output t).1.rows.Perm (prepareFinalProjection t).1.rows)
    ∧ ((prepareFinalProjection t).1.hasCol "bank_code" = false →
        (prepareFinalProjection t).1.hasCol "review_date" = true →
        (prepare_final_output t).1.rows.Pairwise (fun a b => leRowAsc "review_date" a b = true)
        ∧ (prepare_final_output t).1.rows.Perm (prepareFinalProjection t).1.rows)
    ∧ ((prepareFinalProjection t).1.hasCol "bank_code" = false →
        (prepareFinalProjection t).1.hasCol "review_date" = false →
        (prepare_final_output t).1 = (prepareFinalProjection t).1) := by
  have hshape : prepare_final_output t
      = (sortFinal (prepareFinalProjection t).1, (prepareFinalProjection t).2) := by
    unfold prepare_final_output
    dsimp only
  refine ⟨hshape, ?_, ?_, ?_, ?_⟩
  · intro h1 h2
    rw [hshape]
    dsimp only
    unfold sortFinal
    dsimp only
    rw [show (["bank_code", "review_date"] : List String).filter
        (prepareFinalProjection t).1.hasCol = ["bank_code", "review_date"] by
      simp [h1, h2]]
    exact ⟨sortRows_pairwise leRowBoth leRowBoth_trans leRowBoth_total _,
      sortRows_perm leRowBoth _⟩
  · intro h1 h2
    rw [hshape]
    dsimp only
    unfold sortFinal
    dsimp only
    rw [show (["bank_code", "review_date"] : List String).filter
        (prepareFinalProjection t).1.hasCol = ["bank_code"] by
      simp [h1, h2]]
    exact ⟨sortRows_pairwise (leRowAsc "bank_code") (leRowAsc_trans "bank_code")
      (leRowAsc_total "bank_code") _, sortRows_perm (leRowAsc "bank_code") _⟩
  · intro h1 h2
    rw [hshape]
    dsimp only
    unfold sortFinal
    dsimp only
    rw [show (["bank_code", "review_date"] : List String).filter
        (prepareFinalProjection t).1.hasCol = ["review_date"] by
      simp [h1, h2]]
    exact ⟨sortRows_pairwise (leRowAsc "review_date") (leRowAsc_trans "review_date")
      (leRowAsc_total "review_date") _, sortRows_perm (leRowAsc "review_date") _⟩
  · intro h1 h2
    rw [hshape]
    dsimp only
    unfold sortFinal
    dsimp only
    rw [show (["bank_code", "review_date"] : List String).filter
        (prepareFinalProjection t).1.hasCol = [] by
      simp [h1, h2]]

def exC9 : Table :=
  ⟨["review_text", "bank_code", "review_date"],
   [[("review_text", .str "a"), ("bank_code", .str "Dashen"),
     ("review_date", .dateOnly ⟨2023, 1, 2⟩)],
    [("review_text", .str "b"), ("bank_code", .str "CBE"),
     ("review_date", .dateOnly ⟨2023, 5, 2⟩)],
    [("review_text", .str "c"), ("bank_code", .str "CBE"),
     ("review_date", .dateOnly ⟨2023, 7, 2⟩)]]⟩

/-- C9 witness: a concrete three-row table with both sort keys: the
final output is a permutation of the projection, sorted by bank code
ascending then date descending. -/
theorem C9_final_sorting_witness :
    (prepare_final_output exC9).1.rows.Pairwise (fun a b => leRowBoth a b = true)
    ∧ (prepare_final_output exC9).1.rows.Perm (prepareFinalProjection exC9).1.rows :=
  (C9_final_sorting exC9).2.1 (by decide) (by decide)
